import Mathlib

/-!
The root directory of the Swift virtual filesystem: a shallow embedding of
`svfs/root.go`.

* Go strings are Lean `String`s, Go maps are key-unique association lists
  (`GoMap`) and the unspecified order of a `range` over a map is an explicit
  `RangeOrder` argument.
* The two global collaborators of `root.go`, `SwiftConnection` and
  `DirectoryCache`, are records of operations over an arbitrary state type.
* Every operation returns its Go results together with the resulting state and
  the list of state-changing collaborator calls it made.
-/

namespace svfs

/-! ## Data model -/

/-- The type `swift.Container`: the metadata of one backend container. -/
structure SwiftContainer where
  Name : String
  Count : Int
  Bytes : Int
deriving DecidableEq

/-- Go `error` values that reach `root.go`: the two `fuse.Errno` constants it
returns itself and the errors produced by the storage backend. -/
inductive GoError where
  | ENOENT
  | ENOTSUP
  | Backend (status : Nat) (text : String)
deriving DecidableEq

/-- The kind of a directory entry, `fuse.DirentType`. -/
inductive DirentType where
  | DT_Dir
  | DT_File
deriving DecidableEq

/-- The type `fuse.Dirent`, with the fields an export fills in. -/
structure Dirent where
  Typ : DirentType
  Name : String
deriving DecidableEq

/-- The struct `Directory`: `c` is the base container, `cs` the segment container. -/
structure Directory where
  c : Option SwiftContainer
  cs : Option SwiftContainer
  name : String
  path : String
deriving DecidableEq

/-- The struct `Object`, a leaf of the tree. -/
structure Object where
  name : String
  path : String
deriving DecidableEq

/-- The implementers of the interface `Node`. `Root` and `Container` both embed
a `*Directory`. -/
inductive Node where
  | root (d : Directory)
  | container (d : Directory)
  | directory (d : Directory)
  | object (o : Object)
deriving DecidableEq

/-- The struct `Root`, which embeds `*Directory`. -/
structure Root where
  dir : Directory

/-- The promoted field `r.path` of the embedded directory. -/
def Root.path (r : Root) : String := r.dir.path

/-- Modelled from the spec: `Export` of a directory-like node (defined outside
`root.go`) is pure and yields the record `DirEntry{name, kind}` of the node,
here its name and the directory kind. -/
def Directory.Export (d : Directory) : Dirent := { Typ := .DT_Dir, Name := d.name }

/-- Modelled from the spec: `Export` of an object (defined outside `root.go`)
yields its name and the file kind. -/
def Object.Export (o : Object) : Dirent := { Typ := .DT_File, Name := o.name }

/-- The interface method `Node.Export`, dispatched on the dynamic type. -/
def Node.Export : Node → Dirent
  | .root d => d.Export
  | .container d => d.Export
  | .directory d => d.Export
  | .object o => o.Export

/-! ## Go maps -/

/-- A Go `map[string]V`: an association list in which `set` keeps keys unique. -/
structure GoMap (V : Type) where
  entries : List (String × V)
deriving DecidableEq

namespace GoMap

variable {V : Type}

/-- The result of `make(map[string]V)`. -/
def empty : GoMap V := ⟨[]⟩

/-- Lookup in an association list. -/
def lookup : List (String × V) → String → Option V
  | [], _ => none
  | (k', v) :: rest, k => if k' = k then some v else lookup rest k

/-- Overwrite or append in an association list. -/
def insert : List (String × V) → String → V → List (String × V)
  | [], k, v => [(k, v)]
  | (k', v') :: rest, k, v => if k' = k then (k, v) :: rest else (k', v') :: insert rest k v

/-- The map read `m[k]`; `none` is the missing key. -/
def get (m : GoMap V) (k : String) : Option V := lookup m.entries k

/-- The map write `m[k] = v`. -/
def set (m : GoMap V) (k : String) (v : V) : GoMap V := ⟨insert m.entries k v⟩

/-- The keys held by the map. -/
def keys (m : GoMap V) : List String := m.entries.map Prod.fst

end GoMap

/-- The order in which one `range` statement visits the keys of a map. Go leaves
it unspecified; every key is visited exactly once. -/
structure RangeOrder where
  visit : List String → List String
  perm : ∀ ks, (visit ks).Perm ks

/-! ## The segment naming rule -/

/-- The constant `SegmentContainerSuffix`. -/
def SegmentContainerSuffix : String := "_segments"

/-- Matching `.+_segments$` at the head of the input: `.` takes one character
other than a line feed, after which either the rest of the text is exactly the
suffix or `.+` takes more. -/
def matchDotPlusSuffix : List Char → Bool
  | [] => false
  | c :: rest => c != '\n' && (rest == SegmentContainerSuffix.data || matchDotPlusSuffix rest)

/-- The test `SegmentRegex.Match([]byte(name))` for
`SegmentRegex = regexp.MustCompile("^.+_segments$")`: both anchors are those of
the whole text, so the match starts at the first character. -/
def SegmentRegexMatch (name : String) : Bool := matchDotPlusSuffix name.data

/-- The library function `strings.TrimSuffix`. -/
def TrimSuffix (s suffix : String) : String :=
  if suffix.data.isSuffixOf s.data then ⟨s.data.take (s.data.length - suffix.data.length)⟩ else s

/-! ## Collaborators -/

/-- The state-changing calls an operation makes on its collaborators. -/
inductive Event where
  | ContainersAll
  | createContainer (name : String) (result : Except GoError SwiftContainer)
  | AddAll (scope path : String) (children : GoMap Node)

instance : DecidableEq (Except GoError SwiftContainer) := fun a b =>
  match a, b with
  | .ok x, .ok y => if h : x = y then isTrue (by rw [h]) else isFalse (fun e => h (by cases e; rfl))
  | .error x, .error y =>
    if h : x = y then isTrue (by rw [h]) else isFalse (fun e => h (by cases e; rfl))
  | .ok _, .error _ => isFalse (fun e => by cases e)
  | .error _, .ok _ => isFalse (fun e => by cases e)

deriving instance DecidableEq for Event

/-- Modelled from the spec: the helper `createContainer` (defined outside
`root.go`) is `CreateContainer(name) -> ContainerMetadata, or error`. With
`SwiftConnection.ContainersAll` of the client library it forms the backend
operations `root.go` consumes, over a backend state `σ`. -/
structure SwiftConnection (σ : Type) where
  ContainersAll : σ → Except GoError (List SwiftContainer) × σ
  createContainer : String → σ → Except GoError SwiftContainer × σ

/-- Modelled from the spec: the Directory Cache (defined outside `root.go`) over
a cache state `κ`. `Peek`, `GetAll` and `Get` report on the state without
changing it, `AddAll` publishes a child mapping. -/
structure DirectoryCache (κ : Type) where
  Peek : κ → String → String → Bool
  GetAll : κ → String → String → Option (GoMap Node)
  Get : κ → String → String → String → Option Node
  AddAll : κ → String → String → GoMap Node → κ

/-- The state outside the root node: the backend and the cache. -/
structure World (σ κ : Type) where
  swift : σ
  cache : κ

/-! ## `Root.ReadDirAll` -/

/-- The first loop of `ReadDirAll`, "Sort base and segment containers". -/
def sortContainers : List SwiftContainer → GoMap SwiftContainer → GoMap SwiftContainer →
    GoMap SwiftContainer × GoMap SwiftContainer
  | [], baseContainers, segmentContainers => (baseContainers, segmentContainers)
  | s :: cs, baseContainers, segmentContainers =>
    if !SegmentRegexMatch s.Name then
      sortContainers cs (baseContainers.set s.Name s) segmentContainers
    else if SegmentRegexMatch s.Name then
      sortContainers cs baseContainers
        (segmentContainers.set (TrimSuffix s.Name SegmentContainerSuffix) s)
    else
      sortContainers cs baseContainers segmentContainers

/-- The local variables of the second loop of `ReadDirAll`, with the backend
state and the calls made so far. -/
structure LoopState (σ : Type) where
  segmentContainers : GoMap SwiftContainer
  children : GoMap Node
  direntries : List Dirent
  swift : σ
  calls : List Event

/-- "Register direntries and cache entries" for base container `c`, once
`segmentContainers[c.Name]` is set. -/
def register {σ : Type} (c : SwiftContainer) (st : LoopState σ) : LoopState σ :=
  let child : Directory :=
    { c := some c, cs := st.segmentContainers.get c.Name, name := c.Name, path := "" }
  { st with
    children := st.children.set c.Name (.container child)
    direntries := st.direntries ++ [(Node.container child).Export] }

/-- The body of the second loop of `ReadDirAll` for base container `c`:
"Create segment container if missing", then the registration. A failing
`createContainer` is the early return of the method. -/
def loopBody {σ : Type} (S : SwiftConnection σ) (c : SwiftContainer) (st : LoopState σ) :
    Option GoError × LoopState σ :=
  match st.segmentContainers.get c.Name with
  | some _ => (none, register c st)
  | none =>
    match S.createContainer (c.Name ++ SegmentContainerSuffix) st.swift with
    | (.error e, s) =>
      (some e, { st with
        swift := s
        calls := st.calls ++ [.createContainer (c.Name ++ SegmentContainerSuffix) (.error e)] })
    | (.ok seg, s) =>
      (none, register c { st with
        segmentContainers := st.segmentContainers.set c.Name seg
        swift := s
        calls := st.calls ++ [.createContainer (c.Name ++ SegmentContainerSuffix) (.ok seg)] })

/-- The second loop of `ReadDirAll`, over the keys of `baseContainers` in the
order of the `range`. It stops at the first failing `createContainer`. -/
def pairLoop {σ : Type} (S : SwiftConnection σ) (baseContainers : GoMap SwiftContainer) :
    List String → LoopState σ → Option GoError × LoopState σ
  | [], st => (none, st)
  | k :: ks, st =>
    match baseContainers.get k with
    | none => pairLoop S baseContainers ks st
    | some c =>
      match loopBody S c st with
      | (some e, st1) => (some e, st1)
      | (none, st1) => pairLoop S baseContainers ks st1

/-- What `ReadDirAll` returns and leaves behind. -/
structure ReadDirResult (σ κ : Type) where
  direntries : List Dirent
  err : Option GoError
  world : World σ κ
  calls : List Event

/-- The method `Root.ReadDirAll`. `ord` is the order of the `range` over the
cached nodes on a hit and over `baseContainers` on a miss. -/
def Root.ReadDirAll {σ κ : Type} (S : SwiftConnection σ) (D : DirectoryCache κ)
    (ord : RangeOrder) (r : Root) (w : World σ κ) : ReadDirResult σ κ :=
  match D.GetAll w.cache "" r.path with
  | some nodes =>
    { direntries := (ord.visit nodes.keys).filterMap fun k => (nodes.get k).map Node.Export
      err := none
      world := w
      calls := [] }
  | none =>
    match S.ContainersAll w.swift with
    | (.error e, s) =>
      { direntries := [], err := some e, world := { w with swift := s }, calls := [.ContainersAll] }
    | (.ok cs, s) =>
      let sorted := sortContainers cs GoMap.empty GoMap.empty
      match pairLoop S sorted.1 (ord.visit sorted.1.keys)
          { segmentContainers := sorted.2, children := GoMap.empty, direntries := [],
            swift := s, calls := [.ContainersAll] } with
      | (some e, st) =>
        { direntries := [], err := some e, world := { w with swift := st.swift },
          calls := st.calls }
      | (none, st) =>
        { direntries := st.direntries
          err := none
          world := { swift := st.swift, cache := D.AddAll w.cache "" r.path st.children }
          calls := st.calls ++ [.AddAll "" r.path st.children] }

/-! ## `Root.Lookup` -/

/-- The type `fuse.LookupRequest`. -/
structure LookupRequest where
  Name : String

/-- What `Lookup` returns and leaves behind. -/
structure LookupResult (σ κ : Type) where
  node : Option Node
  err : Option GoError
  world : World σ κ
  calls : List Event

/-- The method `Root.Lookup`. The results of the `ReadDirAll` that fills the
cache are dropped, only its effects remain. -/
def Root.Lookup {σ κ : Type} (S : SwiftConnection σ) (D : DirectoryCache κ)
    (ord : RangeOrder) (r : Root) (req : LookupRequest) (w : World σ κ) : LookupResult σ κ :=
  let filled : World σ κ × List Event :=
    if !D.Peek w.cache "" r.path then
      ((Root.ReadDirAll S D ord r w).world, (Root.ReadDirAll S D ord r w).calls)
    else (w, [])
  match D.Get filled.1.cache "" r.path req.Name with
  | some (.container n) => { node := some (.container n), err := none, world := filled.1, calls := filled.2 }
  | some (.directory n) => { node := some (.directory n), err := none, world := filled.1, calls := filled.2 }
  | some (.object n) => { node := some (.object n), err := none, world := filled.1, calls := filled.2 }
  | _ => { node := none, err := some .ENOENT, world := filled.1, calls := filled.2 }

/-! ## Structural mutation at the root -/

/-- The type `fuse.CreateRequest`. -/
structure CreateRequest where
  Name : String
  Flags : Nat
  Mode : Nat

/-- The type `fuse.MkdirRequest`. -/
structure MkdirRequest where
  Name : String
  Mode : Nat

/-- The type `fuse.RemoveRequest`. -/
structure RemoveRequest where
  Name : String
  Dir : Bool

/-- The type `fuse.RenameRequest`. -/
structure RenameRequest where
  NewDir : Nat
  OldName : String
  NewName : String

/-- The type `fs.Handle`. -/
structure Handle where
  id : Nat

/-- What a mutation request at the root returns and leaves behind. -/
structure MutationResult (σ κ : Type) where
  node : Option Node
  handle : Option Handle
  err : Option GoError
  world : World σ κ
  calls : List Event

/-- The method `Root.Create`. -/
def Root.Create {σ κ : Type} (_r : Root) (_req : CreateRequest) (w : World σ κ) :
    MutationResult σ κ :=
  { node := none, handle := none, err := some .ENOTSUP, world := w, calls := [] }

/-- The method `Root.Mkdir`; it has no handle result. -/
def Root.Mkdir {σ κ : Type} (_r : Root) (_req : MkdirRequest) (w : World σ κ) :
    MutationResult σ κ :=
  { node := none, handle := none, err := some .ENOTSUP, world := w, calls := [] }

/-- The method `Root.Remove`; it has neither node nor handle result. -/
def Root.Remove {σ κ : Type} (_r : Root) (_req : RemoveRequest) (w : World σ κ) :
    MutationResult σ κ :=
  { node := none, handle := none, err := some .ENOTSUP, world := w, calls := [] }

/-- The method `Root.Rename`; it has neither node nor handle result. -/
def Root.Rename {σ κ : Type} (_r : Root) (_req : RenameRequest) (_newDir : Node)
    (w : World σ κ) : MutationResult σ κ :=
  { node := none, handle := none, err := some .ENOTSUP, world := w, calls := [] }

/-! ## Reading the list of calls -/

/-- The names passed to `createContainer`, in call order. -/
def createdNames : List Event → List String
  | [] => []
  | .createContainer name _ :: rest => name :: createdNames rest
  | _ :: rest => createdNames rest

/-- The containers that successful `createContainer` calls returned, in call order. -/
def createdContainers : List Event → List SwiftContainer
  | [] => []
  | .createContainer _ (.ok c) :: rest => c :: createdContainers rest
  | _ :: rest => createdContainers rest

/-- The child mappings passed to `AddAll`, with scope and path, in call order. -/
def published : List Event → List (String × String × GoMap Node)
  | [] => []
  | .AddAll scope path children :: rest => (scope, path, children) :: published rest
  | _ :: rest => published rest

/-- A list of calls made of successful `createContainer` calls only. -/
def AllCreated (evs : List Event) : Prop :=
  ∀ ev ∈ evs, ∃ n c, ev = Event.createContainer n (.ok c)

/-- The names of a list of directory entries. -/
def entryNames (ds : List Dirent) : List String := ds.map Dirent.Name

/-! ## A reference backend and cache -/

/-- Modelled from the spec: a backend whose state is the ordered list of its
containers. `ContainersAll` is the full listing at call time; `createContainer`
is create-if-absent and answers with the metadata of the named container.
`listErr` and `createErr` script the backend failures. -/
def storeSwift (listErr : Option GoError) (createErr : String → Option GoError) :
    SwiftConnection (List SwiftContainer) where
  ContainersAll := fun s =>
    match listErr with
    | some e => (.error e, s)
    | none => (.ok s, s)
  createContainer := fun name s =>
    match createErr name with
    | some e => (.error e, s)
    | none =>
      match s.find? (fun c => c.Name = name) with
      | some c => (.ok c, s)
      | none => (.ok { Name := name, Count := 0, Bytes := 0 }, s ++ [{ Name := name, Count := 0, Bytes := 0 }])

/-- Modelled from the spec: a cache whose state is the list of its fresh
entries, keyed by scope and path; an entry that expires leaves the list. -/
def freshCache : DirectoryCache (List ((String × String) × GoMap Node)) where
  Peek := fun c scope path => (c.find? (fun e => e.1 = (scope, path))).isSome
  GetAll := fun c scope path => (c.find? (fun e => e.1 = (scope, path))).map Prod.snd
  Get := fun c scope path name =>
    match c.find? (fun e => e.1 = (scope, path)) with
    | some e => e.2.get name
    | none => none
  AddAll := fun c scope path children =>
    ((scope, path), children) :: c.filter (fun e => e.1 ≠ (scope, path))

/-- The order of a `range` that visits the keys as stored. -/
def storedOrder : RangeOrder := ⟨id, fun _ => List.Perm.refl _⟩

/-- The order of a `range` that visits the keys last to first. -/
def reversedOrder : RangeOrder := ⟨List.reverse, List.reverse_perm⟩

/-- The root node of a mount. -/
def theRoot : Root := ⟨{ c := none, cs := none, name := "", path := "" }⟩

/-- A container with the given name and no content. -/
def bucket (name : String) : SwiftContainer := { Name := name, Count := 0, Bytes := 0 }

/-- The backend on which no call fails. -/
def okSwift : SwiftConnection (List SwiftContainer) := storeSwift none (fun _ => none)

/-- The state with backend containers `L` and nothing cached. -/
def coldWorld (L : List SwiftContainer) :
    World (List SwiftContainer) (List ((String × String) × GoMap Node)) :=
  { swift := L, cache := [] }

/-- The listing `{photos, photos_segments, docs}`. -/
def photosDocs : List SwiftContainer :=
  [bucket "photos", bucket "photos_segments", bucket "docs"]

/-! ## Facts about Go maps -/

namespace GoMap

variable {V : Type}

theorem lookup_insert_self (l : List (String × V)) (k : String) (v : V) :
    lookup (insert l k v) k = some v := by
  induction l with
  | nil => simp [insert, lookup]
  | cons p rest ih =>
    obtain ⟨k', v'⟩ := p
    by_cases h : k' = k
    · simp [insert, lookup, h]
    · simp [insert, lookup, h, ih]

theorem lookup_insert_ne (l : List (String × V)) {k k' : String} (v : V) (h : k' ≠ k) :
    lookup (insert l k v) k' = lookup l k' := by
  induction l with
  | nil =>
    have h' : ¬ k = k' := fun e => h e.symm
    simp [insert, lookup, h']
  | cons p rest ih =>
    obtain ⟨k1, v1⟩ := p
    by_cases h1 : k1 = k
    · subst h1
      have h' : ¬ k1 = k' := fun e => h e.symm
      simp [insert, lookup, h']
    · by_cases h2 : k1 = k'
      · subst h2
        simp [insert, lookup, h1]
      · simp [insert, lookup, h1, h2, ih]

theorem lookup_eq_none_iff (l : List (String × V)) (k : String) :
    lookup l k = none ↔ k ∉ l.map Prod.fst := by
  induction l with
  | nil => simp [lookup]
  | cons p rest ih =>
    obtain ⟨k1, v1⟩ := p
    by_cases h1 : k1 = k
    · simp [lookup, h1]
    · have h' : ¬ k = k1 := fun e => h1 e.symm
      simp [lookup, h1, ih, h']

theorem map_fst_insert_of_mem (l : List (String × V)) {k : String} (v : V)
    (h : k ∈ l.map Prod.fst) : (insert l k v).map Prod.fst = l.map Prod.fst := by
  induction l with
  | nil => simp at h
  | cons p rest ih =>
    obtain ⟨k1, v1⟩ := p
    by_cases h1 : k1 = k
    · simp [insert, h1]
    · have h' : ¬ k = k1 := fun e => h1 e.symm
      have hr : k ∈ rest.map Prod.fst := by simpa [h'] using h
      simp [insert, h1, ih hr]

theorem map_fst_insert_of_not_mem (l : List (String × V)) {k : String} (v : V)
    (h : k ∉ l.map Prod.fst) : (insert l k v).map Prod.fst = l.map Prod.fst ++ [k] := by
  induction l with
  | nil => simp [insert]
  | cons p rest ih =>
    obtain ⟨k1, v1⟩ := p
    have h1 : ¬ k1 = k := by
      intro e
      apply h
      simp [e]
    have hr : k ∉ rest.map Prod.fst := by
      intro hm
      apply h
      simp only [List.map_cons, List.mem_cons]
      exact Or.inr hm
    simp [insert, h1, ih hr]

@[simp] theorem get_empty (k : String) : (empty : GoMap V).get k = none := rfl

@[simp] theorem keys_empty : (empty : GoMap V).keys = [] := rfl

@[simp] theorem get_set_self (m : GoMap V) (k : String) (v : V) : (m.set k v).get k = some v :=
  lookup_insert_self m.entries k v

theorem get_set_ne (m : GoMap V) {k k' : String} (v : V) (h : k' ≠ k) :
    (m.set k v).get k' = m.get k' :=
  lookup_insert_ne m.entries v h

theorem get_eq_none_iff (m : GoMap V) (k : String) : m.get k = none ↔ k ∉ m.keys :=
  lookup_eq_none_iff m.entries k

theorem mem_keys_iff (m : GoMap V) (k : String) : k ∈ m.keys ↔ ∃ v, m.get k = some v := by
  rw [← Option.isSome_iff_exists, ← Option.ne_none_iff_isSome, Ne, get_eq_none_iff]
  simp

theorem keys_set_of_mem (m : GoMap V) {k : String} (v : V) (h : k ∈ m.keys) :
    (m.set k v).keys = m.keys :=
  map_fst_insert_of_mem m.entries v h

theorem keys_set_of_not_mem (m : GoMap V) {k : String} (v : V) (h : k ∉ m.keys) :
    (m.set k v).keys = m.keys ++ [k] :=
  map_fst_insert_of_not_mem m.entries v h

theorem mem_keys_set (m : GoMap V) (k k' : String) (v : V) :
    k' ∈ (m.set k v).keys ↔ k' = k ∨ k' ∈ m.keys := by
  by_cases h : k ∈ m.keys
  · rw [keys_set_of_mem m v h]
    constructor
    · exact Or.inr
    · rintro (rfl | h')
      · exact h
      · exact h'
  · rw [keys_set_of_not_mem m v h]
    simp [or_comm]

theorem nodup_keys_set (m : GoMap V) (k : String) (v : V) (h : m.keys.Nodup) :
    (m.set k v).keys.Nodup := by
  by_cases hk : k ∈ m.keys
  · rw [keys_set_of_mem m v hk]
    exact h
  · rw [keys_set_of_not_mem m v hk]
    exact List.Nodup.append h (List.nodup_singleton k) (by simpa using hk)

end GoMap

/-! ## Facts about the segment naming rule -/

theorem matchDotPlusSuffix_iff (l : List Char) :
    matchDotPlusSuffix l = true ↔
      ∃ p : List Char, p ≠ [] ∧ (∀ c ∈ p, c ≠ '\n') ∧ l = p ++ SegmentContainerSuffix.data := by
  induction l with
  | nil =>
    simp only [matchDotPlusSuffix, Bool.false_eq_true, false_iff]
    rintro ⟨p, hp, -, h⟩
    cases p with
    | nil => exact hp rfl
    | cons a t => simp at h
  | cons c rest ih =>
    simp only [matchDotPlusSuffix, Bool.and_eq_true, Bool.or_eq_true, bne_iff_ne, beq_iff_eq, ih]
    constructor
    · rintro ⟨hc, h | ⟨p, hp, hnl, h⟩⟩
      · exact ⟨[c], by simp, by simpa using hc, by simp [h]⟩
      · refine ⟨c :: p, by simp, ?_, by simp [h]⟩
        intro a ha
        rcases List.mem_cons.mp ha with rfl | ha
        · exact hc
        · exact hnl a ha
    · rintro ⟨p, hp, hnl, h⟩
      cases p with
      | nil => exact absurd rfl hp
      | cons a t =>
        simp only [List.cons_append, List.cons.injEq] at h
        obtain ⟨rfl, hrest⟩ := h
        refine ⟨hnl c (List.mem_cons_self _ _), ?_⟩
        by_cases ht : t = []
        · left
          simp [hrest, ht]
        · right
          exact ⟨t, ht, fun x hx => hnl x (List.mem_cons_of_mem _ hx), hrest⟩

/-- The pattern `^.+_segments$` matches exactly the names made of a non-empty
part free of line feeds followed by the suffix. -/
theorem SegmentRegexMatch_iff (name : String) :
    SegmentRegexMatch name = true ↔
      ∃ x : String, x ≠ "" ∧ (∀ c ∈ x.data, c ≠ '\n') ∧ name = x ++ SegmentContainerSuffix := by
  unfold SegmentRegexMatch
  rw [matchDotPlusSuffix_iff]
  constructor
  · rintro ⟨p, hp, hnl, h⟩
    refine ⟨⟨p⟩, ?_, hnl, ?_⟩
    · intro e
      apply hp
      have := congrArg String.data e
      simpa using this
    · apply String.ext
      simp [h]
  · rintro ⟨x, hx, hnl, h⟩
    refine ⟨x.data, ?_, hnl, ?_⟩
    · intro e
      apply hx
      apply String.ext
      simp [e]
    · simp [h]

theorem TrimSuffix_append (x suffix : String) : TrimSuffix (x ++ suffix) suffix = x := by
  unfold TrimSuffix
  have h : suffix.data.isSuffixOf (x ++ suffix).data = true := by
    rw [List.isSuffixOf_iff_suffix]
    simp
  rw [if_pos h]
  apply String.ext
  simp

theorem SegmentRegexMatch_append {x : String} (hx : x ≠ "") (hnl : ∀ c ∈ x.data, c ≠ '\n') :
    SegmentRegexMatch (x ++ SegmentContainerSuffix) = true :=
  (SegmentRegexMatch_iff _).mpr ⟨x, hx, hnl, rfl⟩

theorem append_suffix_injective {a b : String}
    (h : a ++ SegmentContainerSuffix = b ++ SegmentContainerSuffix) : a = b := by
  have := congrArg (fun s => TrimSuffix s SegmentContainerSuffix) h
  simpa [TrimSuffix_append] using this

/-- A name that matches the pattern is its trimmed name followed by the suffix. -/
theorem TrimSuffix_of_match {name : String} (h : SegmentRegexMatch name = true) :
    name = TrimSuffix name SegmentContainerSuffix ++ SegmentContainerSuffix := by
  obtain ⟨x, -, -, rfl⟩ := (SegmentRegexMatch_iff name).mp h
  rw [TrimSuffix_append]

/-- A matching name trims to `b` exactly when it is `b` followed by the suffix. -/
theorem TrimSuffix_eq_iff {name b : String} (h : SegmentRegexMatch name = true) :
    TrimSuffix name SegmentContainerSuffix = b ↔ name = b ++ SegmentContainerSuffix := by
  constructor
  · intro e
    rw [← e]
    exact TrimSuffix_of_match h
  · intro e
    rw [e, TrimSuffix_append]

/-- The `.` of the pattern takes no line feed: a name with a line feed before
the suffix does not match. -/
theorem SegmentRegexMatch_line_feed :
    SegmentRegexMatch ("a\nb" ++ SegmentContainerSuffix) = false := by
  decide

/-! ## Facts about the first loop -/

theorem sortContainers_cons (x : SwiftContainer) (cs : List SwiftContainer)
    (b s : GoMap SwiftContainer) :
    sortContainers (x :: cs) b s =
      if SegmentRegexMatch x.Name = true then
        sortContainers cs b (s.set (TrimSuffix x.Name SegmentContainerSuffix) x)
      else sortContainers cs (b.set x.Name x) s := by
  cases h : SegmentRegexMatch x.Name <;> simp [sortContainers, h]

theorem sort_base_get (cs : List SwiftContainer) :
    ∀ (b s : GoMap SwiftContainer) (k : String) (c : SwiftContainer),
      (sortContainers cs b s).1.get k = some c →
        b.get k = some c ∨ (c ∈ cs ∧ c.Name = k ∧ SegmentRegexMatch c.Name = false) := by
  induction cs with
  | nil =>
    intro b s k c h
    exact Or.inl h
  | cons x cs ih =>
    intro b s k c h
    rw [sortContainers_cons] at h
    by_cases hm : SegmentRegexMatch x.Name = true
    · rw [if_pos hm] at h
      rcases ih _ _ _ _ h with h1 | ⟨h1, h2, h3⟩
      · exact Or.inl h1
      · exact Or.inr ⟨List.mem_cons_of_mem _ h1, h2, h3⟩
    · rw [if_neg hm] at h
      rcases ih _ _ _ _ h with h1 | ⟨h1, h2, h3⟩
      · by_cases hk : k = x.Name
        · subst hk
          rw [GoMap.get_set_self] at h1
          cases h1
          exact Or.inr ⟨List.mem_cons_self _ _, rfl, by simpa using hm⟩
        · rw [GoMap.get_set_ne _ _ hk] at h1
          exact Or.inl h1
      · exact Or.inr ⟨List.mem_cons_of_mem _ h1, h2, h3⟩

theorem sort_base_keys (cs : List SwiftContainer) :
    ∀ (b s : GoMap SwiftContainer) (k : String),
      k ∈ (sortContainers cs b s).1.keys ↔
        k ∈ b.keys ∨ ∃ c ∈ cs, c.Name = k ∧ SegmentRegexMatch c.Name = false := by
  induction cs with
  | nil =>
    intro b s k
    simp [sortContainers]
  | cons x cs ih =>
    intro b s k
    rw [sortContainers_cons]
    by_cases hm : SegmentRegexMatch x.Name = true
    · rw [if_pos hm, ih]
      constructor
      · rintro (h | ⟨c, hc, h1, h2⟩)
        · exact Or.inl h
        · exact Or.inr ⟨c, List.mem_cons_of_mem _ hc, h1, h2⟩
      · rintro (h | ⟨c, hc, h1, h2⟩)
        · exact Or.inl h
        · rcases List.mem_cons.mp hc with rfl | hc
          · rw [hm] at h2
            cases h2
          · exact Or.inr ⟨c, hc, h1, h2⟩
    · rw [if_neg hm, ih, GoMap.mem_keys_set]
      constructor
      · rintro ((h | h) | ⟨c, hc, h1, h2⟩)
        · exact Or.inr ⟨x, List.mem_cons_self _ _, h.symm, by simpa using hm⟩
        · exact Or.inl h
        · exact Or.inr ⟨c, List.mem_cons_of_mem _ hc, h1, h2⟩
      · rintro (h | ⟨c, hc, h1, h2⟩)
        · exact Or.inl (Or.inr h)
        · rcases List.mem_cons.mp hc with rfl | hc
          · exact Or.inl (Or.inl h1.symm)
          · exact Or.inr ⟨c, hc, h1, h2⟩

theorem sort_base_nodup (cs : List SwiftContainer) :
    ∀ (b s : GoMap SwiftContainer), b.keys.Nodup → (sortContainers cs b s).1.keys.Nodup := by
  induction cs with
  | nil =>
    intro b s h
    exact h
  | cons x cs ih =>
    intro b s h
    rw [sortContainers_cons]
    by_cases hm : SegmentRegexMatch x.Name = true
    · rw [if_pos hm]
      exact ih _ _ h
    · rw [if_neg hm]
      exact ih _ _ (GoMap.nodup_keys_set _ _ _ h)

theorem sort_seg_get (cs : List SwiftContainer) :
    ∀ (b s : GoMap SwiftContainer) (k : String) (c : SwiftContainer),
      (sortContainers cs b s).2.get k = some c →
        s.get k = some c ∨
          (c ∈ cs ∧ SegmentRegexMatch c.Name = true ∧
            TrimSuffix c.Name SegmentContainerSuffix = k) := by
  induction cs with
  | nil =>
    intro b s k c h
    exact Or.inl h
  | cons x cs ih =>
    intro b s k c h
    rw [sortContainers_cons] at h
    by_cases hm : SegmentRegexMatch x.Name = true
    · rw [if_pos hm] at h
      rcases ih _ _ _ _ h with h1 | ⟨h1, h2, h3⟩
      · by_cases hk : k = TrimSuffix x.Name SegmentContainerSuffix
        · subst hk
          rw [GoMap.get_set_self] at h1
          cases h1
          exact Or.inr ⟨List.mem_cons_self _ _, hm, rfl⟩
        · rw [GoMap.get_set_ne _ _ hk] at h1
          exact Or.inl h1
      · exact Or.inr ⟨List.mem_cons_of_mem _ h1, h2, h3⟩
    · rw [if_neg hm] at h
      rcases ih _ _ _ _ h with h1 | ⟨h1, h2, h3⟩
      · exact Or.inl h1
      · exact Or.inr ⟨List.mem_cons_of_mem _ h1, h2, h3⟩

theorem sort_seg_keys (cs : List SwiftContainer) :
    ∀ (b s : GoMap SwiftContainer) (k : String),
      k ∈ (sortContainers cs b s).2.keys ↔
        k ∈ s.keys ∨ ∃ c ∈ cs, SegmentRegexMatch c.Name = true ∧
          TrimSuffix c.Name SegmentContainerSuffix = k := by
  induction cs with
  | nil =>
    intro b s k
    simp [sortContainers]
  | cons x cs ih =>
    intro b s k
    rw [sortContainers_cons]
    by_cases hm : SegmentRegexMatch x.Name = true
    · rw [if_pos hm, ih, GoMap.mem_keys_set]
      constructor
      · rintro ((h | h) | ⟨c, hc, h1, h2⟩)
        · exact Or.inr ⟨x, List.mem_cons_self _ _, hm, h.symm⟩
        · exact Or.inl h
        · exact Or.inr ⟨c, List.mem_cons_of_mem _ hc, h1, h2⟩
      · rintro (h | ⟨c, hc, h1, h2⟩)
        · exact Or.inl (Or.inr h)
        · rcases List.mem_cons.mp hc with rfl | hc
          · exact Or.inl (Or.inl h2.symm)
          · exact Or.inr ⟨c, hc, h1, h2⟩
    · rw [if_neg hm, ih]
      constructor
      · rintro (h | ⟨c, hc, h1, h2⟩)
        · exact Or.inl h
        · exact Or.inr ⟨c, List.mem_cons_of_mem _ hc, h1, h2⟩
      · rintro (h | ⟨c, hc, h1, h2⟩)
        · exact Or.inl h
        · rcases List.mem_cons.mp hc with rfl | hc
          · exact absurd h1 hm
          · exact Or.inr ⟨c, hc, h1, h2⟩

/-! ## Facts about the list of calls -/

theorem createdNames_append (a b : List Event) :
    createdNames (a ++ b) = createdNames a ++ createdNames b := by
  induction a with
  | nil => rfl
  | cons e rest ih => cases e <;> simp [createdNames, ih]

theorem createdContainers_append (a b : List Event) :
    createdContainers (a ++ b) = createdContainers a ++ createdContainers b := by
  induction a with
  | nil => rfl
  | cons e rest ih =>
    cases e with
    | ContainersAll => simp [createdContainers, ih]
    | AddAll s p m => simp [createdContainers, ih]
    | createContainer n res => cases res <;> simp [createdContainers, ih]

theorem published_append (a b : List Event) :
    published (a ++ b) = published a ++ published b := by
  induction a with
  | nil => rfl
  | cons e rest ih => cases e <;> simp [published, ih]

theorem mem_createdNames (evs : List Event) (n : String) :
    n ∈ createdNames evs ↔ ∃ res, Event.createContainer n res ∈ evs := by
  induction evs with
  | nil => simp [createdNames]
  | cons e rest ih =>
    cases e with
    | ContainersAll => simp [createdNames, ih]
    | AddAll s p m => simp [createdNames, ih]
    | createContainer m res =>
      simp only [createdNames, List.mem_cons, ih, Event.createContainer.injEq]
      constructor
      · rintro (rfl | ⟨r, hr⟩)
        · exact ⟨res, Or.inl ⟨rfl, rfl⟩⟩
        · exact ⟨r, Or.inr hr⟩
      · rintro ⟨r, ⟨rfl, -⟩ | hr⟩
        · exact Or.inl rfl
        · exact Or.inr ⟨r, hr⟩

theorem mem_createdContainers (evs : List Event) (c : SwiftContainer) :
    c ∈ createdContainers evs ↔ ∃ n, Event.createContainer n (.ok c) ∈ evs := by
  induction evs with
  | nil => simp [createdContainers]
  | cons e rest ih =>
    cases e with
    | ContainersAll => simp [createdContainers, ih]
    | AddAll s p m => simp [createdContainers, ih]
    | createContainer m res =>
      cases res with
      | error e => simp [createdContainers, ih]
      | ok d =>
        simp only [createdContainers, List.mem_cons, ih, Event.createContainer.injEq,
          Except.ok.injEq]
        constructor
        · rintro (rfl | ⟨n, hn⟩)
          · exact ⟨m, Or.inl ⟨rfl, rfl⟩⟩
          · exact ⟨n, Or.inr hn⟩
        · rintro ⟨n, ⟨-, rfl⟩ | hn⟩
          · exact Or.inl rfl
          · exact Or.inr ⟨n, hn⟩

theorem AllCreated.nil : AllCreated [] := by
  intro ev h
  cases h

theorem AllCreated.append {a b : List Event} (ha : AllCreated a) (hb : AllCreated b) :
    AllCreated (a ++ b) := by
  intro ev h
  rcases List.mem_append.mp h with h | h
  · exact ha ev h
  · exact hb ev h

theorem AllCreated.published {evs : List Event} (h : AllCreated evs) : published evs = [] := by
  induction evs with
  | nil => rfl
  | cons e rest ih =>
    obtain ⟨n, c, rfl⟩ := h e (List.mem_cons_self _ _)
    simpa [svfs.published] using ih (fun ev hev => h ev (List.mem_cons_of_mem _ hev))

theorem AllCreated.no_error {evs : List Event} (h : AllCreated evs) (n : String) (e : GoError) :
    Event.createContainer n (.error e) ∉ evs := by
  intro hm
  obtain ⟨m, c, hc⟩ := h _ hm
  cases hc

/-! ## Facts about the second loop -/

theorem loopBody_ok {σ : Type} (S : SwiftConnection σ) (c : SwiftContainer)
    (st st1 : LoopState σ) (h : loopBody S c st = (none, st1)) :
    ∃ s, st1.segmentContainers.get c.Name = some s ∧
      st1.children = st.children.set c.Name (.container ⟨some c, some s, c.Name, ""⟩) ∧
      st1.direntries = st.direntries ++ [⟨.DT_Dir, c.Name⟩] ∧
      (∀ k, k ≠ c.Name → st1.segmentContainers.get k = st.segmentContainers.get k) ∧
      ((st.segmentContainers.get c.Name = some s ∧ st1.calls = st.calls) ∨
        (st.segmentContainers.get c.Name = none ∧
          st1.calls = st.calls ++
            [.createContainer (c.Name ++ SegmentContainerSuffix) (.ok s)] ∧
          ∃ sw, S.createContainer (c.Name ++ SegmentContainerSuffix) st.swift = (.ok s, sw))) := by
  unfold loopBody at h
  cases hs : st.segmentContainers.get c.Name with
  | some s =>
    rw [hs] at h
    simp only [Prod.mk.injEq, true_and] at h
    subst h
    exact ⟨s, by simp [register, hs], by simp [register, hs],
      by simp [register, Node.Export, Directory.Export], fun k _ => rfl, Or.inl ⟨rfl, rfl⟩⟩
  | none =>
    rw [hs] at h
    cases hc : S.createContainer (c.Name ++ SegmentContainerSuffix) st.swift with
    | mk res sw =>
      rw [hc] at h
      cases res with
      | error e => simp at h
      | ok s =>
        simp only [Prod.mk.injEq, true_and] at h
        subst h
        refine ⟨s, by simp [register], by simp [register],
          by simp [register, Node.Export, Directory.Export], ?_, Or.inr ⟨rfl, rfl, sw, rfl⟩⟩
        intro k hk
        simp [register, GoMap.get_set_ne _ _ hk]

theorem loopBody_err {σ : Type} (S : SwiftConnection σ) (c : SwiftContainer)
    (st st1 : LoopState σ) (e : GoError) (h : loopBody S c st = (some e, st1)) :
    st.segmentContainers.get c.Name = none ∧
      st1.calls = st.calls ++ [.createContainer (c.Name ++ SegmentContainerSuffix) (.error e)] ∧
      ∃ sw, S.createContainer (c.Name ++ SegmentContainerSuffix) st.swift = (.error e, sw) := by
  unfold loopBody at h
  cases hs : st.segmentContainers.get c.Name with
  | some s =>
    rw [hs] at h
    simp at h
  | none =>
    rw [hs] at h
    cases hc : S.createContainer (c.Name ++ SegmentContainerSuffix) st.swift with
    | mk res sw =>
      rw [hc] at h
      cases res with
      | error e1 =>
        simp only [Prod.mk.injEq, Option.some.injEq] at h
        obtain ⟨rfl, rfl⟩ := h
        exact ⟨rfl, rfl, sw, rfl⟩
      | ok s => simp at h

theorem pairLoop_cons {σ : Type} (S : SwiftConnection σ) (base : GoMap SwiftContainer)
    (k : String) (ks : List String) (st : LoopState σ) (c : SwiftContainer)
    (hc : base.get k = some c) :
    pairLoop S base (k :: ks) st =
      match loopBody S c st with
      | (some e, st1) => (some e, st1)
      | (none, st1) => pairLoop S base ks st1 := by
  simp only [pairLoop, hc]

/-- What a run of the second loop without a failing call leaves behind. -/
theorem pairLoop_ok {σ : Type} (S : SwiftConnection σ) (base : GoMap SwiftContainer)
    (hbase : ∀ k c, base.get k = some c → c.Name = k) :
    ∀ (ks : List String) (st st2 : LoopState σ), ks.Nodup →
      (∀ k ∈ ks, k ∈ base.keys) → (∀ k ∈ ks, k ∉ st.children.keys) →
      pairLoop S base ks st = (none, st2) →
        st2.direntries = st.direntries ++ ks.map (fun k => (⟨.DT_Dir, k⟩ : Dirent)) ∧
        st2.children.keys = st.children.keys ++ ks ∧
        (∀ k, k ∉ ks → st2.children.get k = st.children.get k ∧
          st2.segmentContainers.get k = st.segmentContainers.get k) ∧
        (∀ k ∈ ks, ∃ c s, base.get k = some c ∧
          st2.children.get k = some (.container ⟨some c, some s, k, ""⟩) ∧
          st2.segmentContainers.get k = some s ∧
          (st.segmentContainers.get k = some s ∨
            (st.segmentContainers.get k = none ∧
              Event.createContainer (k ++ SegmentContainerSuffix) (.ok s) ∈ st2.calls))) ∧
        ∃ evs, st2.calls = st.calls ++ evs ∧ AllCreated evs ∧
          createdNames evs =
            (ks.filter (fun k => (st.segmentContainers.get k).isNone)).map
              (fun k => k ++ SegmentContainerSuffix) ∧
          ∀ n c, Event.createContainer n (.ok c) ∈ evs →
            ∃ sw sw1, S.createContainer n sw = (.ok c, sw1) := by
  intro ks
  induction ks with
  | nil =>
    intro st st2 _ _ _ h
    simp only [pairLoop, Prod.mk.injEq, true_and] at h
    subst h
    refine ⟨by simp, by simp, fun k _ => ⟨rfl, rfl⟩, ?_, [], by simp, AllCreated.nil, rfl, ?_⟩
    · intro k hk
      cases hk
    · intro n c hm
      cases hm
  | cons k ks ih =>
    intro st st2 hnd hks hfresh h
    obtain ⟨c, hc⟩ := (GoMap.mem_keys_iff base k).mp (hks k (List.mem_cons_self _ _))
    have hname : c.Name = k := hbase k c hc
    rw [pairLoop_cons S base k ks st c hc] at h
    cases hb : loopBody S c st with
    | mk res st1 =>
      rw [hb] at h
      cases res with
      | some e => simp at h
      | none =>
        simp only at h
        obtain ⟨s, hseg1, hch1, hde1, hother, hcalls⟩ := loopBody_ok S c st st1 hb
        rw [hname] at hseg1 hch1 hde1 hother hcalls
        have hk_notin : k ∉ ks := (List.nodup_cons.mp hnd).1
        have hnd1 : ks.Nodup := (List.nodup_cons.mp hnd).2
        have hks1 : ∀ k1 ∈ ks, k1 ∈ base.keys := fun k1 h1 => hks k1 (List.mem_cons_of_mem _ h1)
        have hne : ∀ k1 ∈ ks, k1 ≠ k := by
          intro k1 h1 e
          exact hk_notin (e ▸ h1)
        have hfresh1 : ∀ k1 ∈ ks, k1 ∉ st1.children.keys := by
          intro k1 h1
          rw [hch1, GoMap.mem_keys_set]
          rintro (e | hm)
          · exact hne k1 h1 e
          · exact hfresh k1 (List.mem_cons_of_mem _ h1) hm
        obtain ⟨hde, hkeys, hkeep, hnodes, evs, hevs, hall, hnames, hfrom⟩ :=
          ih st1 st2 hnd1 hks1 hfresh1 h
        have hkfresh : k ∉ st.children.keys := hfresh k (List.mem_cons_self _ _)
        refine ⟨?_, ?_, ?_, ?_, ?_⟩
        · rw [hde, hde1]
          simp
        · rw [hkeys, hch1, GoMap.keys_set_of_not_mem _ _ hkfresh]
          simp
        · intro k1 hk1
          have hk1k : k1 ≠ k := fun e => hk1 (e ▸ List.mem_cons_self _ _)
          have hk1ks : k1 ∉ ks := fun hm => hk1 (List.mem_cons_of_mem _ hm)
          obtain ⟨h1, h2⟩ := hkeep k1 hk1ks
          rw [h1, h2, hch1, GoMap.get_set_ne _ _ hk1k, hother k1 hk1k]
          exact ⟨rfl, rfl⟩
        · intro k1 hk1
          rcases List.mem_cons.mp hk1 with rfl | hk1
          · obtain ⟨h1, h2⟩ := hkeep k1 hk_notin
            refine ⟨c, s, hc, ?_, ?_, ?_⟩
            · rw [h1, hch1, GoMap.get_set_self]
            · rw [h2, hseg1]
            · rcases hcalls with ⟨h3, -⟩ | ⟨h3, h4, -⟩
              · exact Or.inl h3
              · right
                refine ⟨h3, ?_⟩
                rw [hevs, h4]
                simp
          · obtain ⟨c1, s1, hc1, hnode, hseg, hor⟩ := hnodes k1 hk1
            refine ⟨c1, s1, hc1, hnode, hseg, ?_⟩
            rw [hother k1 (hne k1 hk1)] at hor
            exact hor
        · have hfilter : ks.filter (fun k => (st1.segmentContainers.get k).isNone) =
              ks.filter (fun k => (st.segmentContainers.get k).isNone) := by
            apply List.filter_congr
            intro k1 hk1
            rw [hother k1 (hne k1 hk1)]
          rw [hfilter] at hnames
          rcases hcalls with ⟨h3, h4⟩ | ⟨h3, h4, sw, h5⟩
          · refine ⟨evs, by rw [hevs, h4], hall, ?_, hfrom⟩
            rw [hnames]
            simp [List.filter_cons, h3]
          · refine ⟨Event.createContainer (k ++ SegmentContainerSuffix) (.ok s) :: evs,
              by rw [hevs, h4]; simp, ?_, ?_, ?_⟩
            · intro ev hev
              rcases List.mem_cons.mp hev with rfl | hev
              · exact ⟨_, _, rfl⟩
              · exact hall ev hev
            · simp [createdNames, hnames, List.filter_cons, h3]
            · intro n c1 hm
              rcases List.mem_cons.mp hm with hm | hm
              · cases hm
                exact ⟨st.swift, sw, h5⟩
              · exact hfrom n c1 hm

/-- What a run of the second loop that stops at a failing call leaves behind. -/
theorem pairLoop_err {σ : Type} (S : SwiftConnection σ) (base : GoMap SwiftContainer)
    (hbase : ∀ k c, base.get k = some c → c.Name = k) :
    ∀ (ks : List String) (st st2 : LoopState σ) (e : GoError), ks.Nodup →
      pairLoop S base ks st = (some e, st2) →
        ∃ evs k sw sw1, st2.calls = st.calls ++ evs ++
            [.createContainer (k ++ SegmentContainerSuffix) (.error e)] ∧
          AllCreated evs ∧ k ∈ ks ∧ st.segmentContainers.get k = none ∧
          S.createContainer (k ++ SegmentContainerSuffix) sw = (.error e, sw1) := by
  intro ks
  induction ks with
  | nil =>
    intro st st2 e _ h
    simp [pairLoop] at h
  | cons k ks ih =>
    intro st st2 e hnd h
    have hk_notin : k ∉ ks := (List.nodup_cons.mp hnd).1
    have hnd1 : ks.Nodup := (List.nodup_cons.mp hnd).2
    cases hc : base.get k with
    | none =>
      simp only [pairLoop, hc] at h
      obtain ⟨evs, k1, sw, sw1, h1, h2, h3, h4, h5⟩ := ih st st2 e hnd1 h
      exact ⟨evs, k1, sw, sw1, h1, h2, List.mem_cons_of_mem _ h3, h4, h5⟩
    | some c =>
      have hname : c.Name = k := hbase k c hc
      rw [pairLoop_cons S base k ks st c hc] at h
      cases hb : loopBody S c st with
      | mk res st1 =>
        rw [hb] at h
        cases res with
        | some e1 =>
          simp only [Prod.mk.injEq, Option.some.injEq] at h
          obtain ⟨rfl, rfl⟩ := h
          obtain ⟨h1, h2, sw, h3⟩ := loopBody_err S c st st1 e1 hb
          rw [hname] at h1 h2 h3
          exact ⟨[], k, st.swift, sw, by simp [h2], AllCreated.nil, List.mem_cons_self _ _,
            h1, h3⟩
        | none =>
          simp only at h
          obtain ⟨s, -, -, -, hother, hcalls⟩ := loopBody_ok S c st st1 hb
          rw [hname] at hother hcalls
          obtain ⟨evs, k1, sw, sw1, h1, h2, h3, h4, h5⟩ := ih st1 st2 e hnd1 h
          have hk1 : k1 ≠ k := fun e => hk_notin (e ▸ h3)
          rw [hother k1 hk1] at h4
          rcases hcalls with ⟨-, h6⟩ | ⟨-, h6, -⟩
          · exact ⟨evs, k1, sw, sw1, by rw [h1, h6], h2, List.mem_cons_of_mem _ h3, h4, h5⟩
          · refine ⟨Event.createContainer (k ++ SegmentContainerSuffix) (.ok s) :: evs,
              k1, sw, sw1, by rw [h1, h6]; simp, ?_, List.mem_cons_of_mem _ h3, h4, h5⟩
            intro ev hev
            rcases List.mem_cons.mp hev with rfl | hev
            · exact ⟨_, _, rfl⟩
            · exact h2 ev hev

/-! ## Facts about the sorted listing -/

theorem base_get_name (L : List SwiftContainer) (k : String) (c : SwiftContainer)
    (h : (sortContainers L GoMap.empty GoMap.empty).1.get k = some c) :
    c ∈ L ∧ c.Name = k ∧ SegmentRegexMatch c.Name = false := by
  rcases sort_base_get L _ _ k c h with h1 | h1
  · simp at h1
  · exact h1

theorem base_keys_iff (L : List SwiftContainer) (k : String) :
    k ∈ (sortContainers L GoMap.empty GoMap.empty).1.keys ↔
      ∃ c ∈ L, c.Name = k ∧ SegmentRegexMatch c.Name = false := by
  rw [sort_base_keys]
  simp

theorem base_keys_nodup (L : List SwiftContainer) :
    (sortContainers L GoMap.empty GoMap.empty).1.keys.Nodup :=
  sort_base_nodup L _ _ (by simp)

theorem seg_get_name (L : List SwiftContainer) (k : String) (c : SwiftContainer)
    (h : (sortContainers L GoMap.empty GoMap.empty).2.get k = some c) :
    c ∈ L ∧ SegmentRegexMatch c.Name = true ∧ c.Name = k ++ SegmentContainerSuffix := by
  rcases sort_seg_get L _ _ k c h with h1 | ⟨h1, h2, h3⟩
  · simp at h1
  · exact ⟨h1, h2, (TrimSuffix_eq_iff h2).mp h3⟩

theorem seg_get_none_iff (L : List SwiftContainer) (k : String) :
    (sortContainers L GoMap.empty GoMap.empty).2.get k = none ↔
      ¬ ∃ c ∈ L, SegmentRegexMatch c.Name = true ∧
        TrimSuffix c.Name SegmentContainerSuffix = k := by
  rw [GoMap.get_eq_none_iff, sort_seg_keys]
  simp

/-! ## Facts about `ReadDirAll` on a cache miss -/

section ReadDirAll

variable {σ κ : Type} (S : SwiftConnection σ) (D : DirectoryCache κ) (ord : RangeOrder)
  (r : Root) (w : World σ κ)

theorem ReadDirAll_list_error (e : GoError) (s : σ)
    (hmiss : D.GetAll w.cache "" r.path = none)
    (hlist : S.ContainersAll w.swift = (.error e, s)) :
    Root.ReadDirAll S D ord r w =
      { direntries := [], err := some e, world := { w with swift := s },
        calls := [.ContainersAll] } := by
  simp [Root.ReadDirAll, hmiss, hlist]

/-- A cache miss that ends without error: the entries, the calls and the
published children in terms of the sorted listing. -/
theorem ReadDirAll_ok (L : List SwiftContainer) (s : σ)
    (hmiss : D.GetAll w.cache "" r.path = none)
    (hlist : S.ContainersAll w.swift = (.ok L, s))
    (hok : (Root.ReadDirAll S D ord r w).err = none) :
    ∃ (children : GoMap Node) (evs : List Event),
      (Root.ReadDirAll S D ord r w).direntries =
        (ord.visit (sortContainers L GoMap.empty GoMap.empty).1.keys).map
          (fun k => (⟨.DT_Dir, k⟩ : Dirent)) ∧
      (Root.ReadDirAll S D ord r w).calls =
        Event.ContainersAll :: evs ++ [.AddAll "" r.path children] ∧
      AllCreated evs ∧
      createdNames evs =
        ((ord.visit (sortContainers L GoMap.empty GoMap.empty).1.keys).filter
          (fun k => ((sortContainers L GoMap.empty GoMap.empty).2.get k).isNone)).map
          (fun k => k ++ SegmentContainerSuffix) ∧
      (Root.ReadDirAll S D ord r w).world.cache = D.AddAll w.cache "" r.path children ∧
      children.keys = ord.visit (sortContainers L GoMap.empty GoMap.empty).1.keys ∧
      (∀ k ∈ (sortContainers L GoMap.empty GoMap.empty).1.keys, ∃ c sg,
        (sortContainers L GoMap.empty GoMap.empty).1.get k = some c ∧
        children.get k = some (.container ⟨some c, some sg, k, ""⟩) ∧
        ((sortContainers L GoMap.empty GoMap.empty).2.get k = some sg ∨
          ((sortContainers L GoMap.empty GoMap.empty).2.get k = none ∧
            Event.createContainer (k ++ SegmentContainerSuffix) (.ok sg) ∈ evs))) ∧
      (∀ n c, Event.createContainer n (.ok c) ∈ evs →
        ∃ sw sw1, S.createContainer n sw = (.ok c, sw1)) := by
  have hbase : ∀ k c, (sortContainers L GoMap.empty GoMap.empty).1.get k = some c →
      c.Name = k := fun k c h => (base_get_name L k c h).2.1
  have hperm := ord.perm (sortContainers L GoMap.empty GoMap.empty).1.keys
  have hnd : (ord.visit (sortContainers L GoMap.empty GoMap.empty).1.keys).Nodup :=
    hperm.nodup_iff.mpr (base_keys_nodup L)
  have hks : ∀ k ∈ ord.visit (sortContainers L GoMap.empty GoMap.empty).1.keys,
      k ∈ (sortContainers L GoMap.empty GoMap.empty).1.keys := fun k hk => hperm.mem_iff.mp hk
  cases hloop : pairLoop S (sortContainers L GoMap.empty GoMap.empty).1
      (ord.visit (sortContainers L GoMap.empty GoMap.empty).1.keys)
      { segmentContainers := (sortContainers L GoMap.empty GoMap.empty).2,
        children := GoMap.empty, direntries := [], swift := s,
        calls := [.ContainersAll] } with
  | mk res st =>
    have hrun : Root.ReadDirAll S D ord r w =
        match (res, st) with
        | (some e, st) =>
          { direntries := [], err := some e, world := { w with swift := st.swift },
            calls := st.calls }
        | (none, st) =>
          { direntries := st.direntries
            err := none
            world := { swift := st.swift, cache := D.AddAll w.cache "" r.path st.children }
            calls := st.calls ++ [.AddAll "" r.path st.children] } := by
      simp only [Root.ReadDirAll, hmiss, hlist, hloop]
    cases res with
    | some e =>
      rw [hrun] at hok
      simp at hok
    | none =>
      obtain ⟨hde, hkeys, -, hnodes, evs, hevs, hall, hnames, hfrom⟩ :=
        pairLoop_ok S _ hbase _ _ st hnd hks (by simp) hloop
      rw [hrun]
      refine ⟨st.children, evs, by simpa using hde, by simp [hevs], hall, hnames, rfl,
        by simpa using hkeys, ?_, hfrom⟩
      intro k hk
      obtain ⟨c, sg, h1, h2, -, h3⟩ := hnodes k (hperm.mem_iff.mpr hk)
      refine ⟨c, sg, h1, h2, ?_⟩
      rcases h3 with h3 | ⟨h3, h4⟩
      · exact Or.inl h3
      · right
        refine ⟨h3, ?_⟩
        rw [hevs] at h4
        simpa using h4

/-- A cache miss that ends with an error after a successful listing: nothing is
returned or published, and the failing call is the last one. -/
theorem ReadDirAll_err (L : List SwiftContainer) (s : σ) (e : GoError)
    (hmiss : D.GetAll w.cache "" r.path = none)
    (hlist : S.ContainersAll w.swift = (.ok L, s))
    (herr : (Root.ReadDirAll S D ord r w).err = some e) :
    (Root.ReadDirAll S D ord r w).direntries = [] ∧
      (Root.ReadDirAll S D ord r w).world.cache = w.cache ∧
      ∃ evs k sw sw1,
        (Root.ReadDirAll S D ord r w).calls = Event.ContainersAll :: evs ++
          [.createContainer (k ++ SegmentContainerSuffix) (.error e)] ∧
        AllCreated evs ∧
        k ∈ (sortContainers L GoMap.empty GoMap.empty).1.keys ∧
        (sortContainers L GoMap.empty GoMap.empty).2.get k = none ∧
        S.createContainer (k ++ SegmentContainerSuffix) sw = (.error e, sw1) := by
  have hbase : ∀ k c, (sortContainers L GoMap.empty GoMap.empty).1.get k = some c →
      c.Name = k := fun k c h => (base_get_name L k c h).2.1
  have hperm := ord.perm (sortContainers L GoMap.empty GoMap.empty).1.keys
  have hnd : (ord.visit (sortContainers L GoMap.empty GoMap.empty).1.keys).Nodup :=
    hperm.nodup_iff.mpr (base_keys_nodup L)
  cases hloop : pairLoop S (sortContainers L GoMap.empty GoMap.empty).1
      (ord.visit (sortContainers L GoMap.empty GoMap.empty).1.keys)
      { segmentContainers := (sortContainers L GoMap.empty GoMap.empty).2,
        children := GoMap.empty, direntries := [], swift := s,
        calls := [.ContainersAll] } with
  | mk res st =>
    have hrun : Root.ReadDirAll S D ord r w =
        match (res, st) with
        | (some e, st) =>
          { direntries := [], err := some e, world := { w with swift := st.swift },
            calls := st.calls }
        | (none, st) =>
          { direntries := st.direntries
            err := none
            world := { swift := st.swift, cache := D.AddAll w.cache "" r.path st.children }
            calls := st.calls ++ [.AddAll "" r.path st.children] } := by
      simp only [Root.ReadDirAll, hmiss, hlist, hloop]
    cases res with
    | none =>
      rw [hrun] at herr
      simp at herr
    | some e1 =>
      rw [hrun] at herr ⊢
      simp only [Option.some.injEq] at herr
      subst herr
      obtain ⟨evs, k, sw, sw1, h1, h2, h3, h4, h5⟩ := pairLoop_err S _ hbase _ _ st e1 hnd hloop
      exact ⟨rfl, rfl, evs, k, sw, sw1, by simp [h1], h2, hperm.mem_iff.mp h3, h4, h5⟩

end ReadDirAll

section Entries

variable {σ κ : Type} (S : SwiftConnection σ) (D : DirectoryCache κ) (ord : RangeOrder)
  (r : Root) (w : World σ κ)

theorem entryNames_ok (L : List SwiftContainer) (s : σ)
    (hmiss : D.GetAll w.cache "" r.path = none)
    (hlist : S.ContainersAll w.swift = (.ok L, s))
    (hok : (Root.ReadDirAll S D ord r w).err = none) :
    entryNames (Root.ReadDirAll S D ord r w).direntries =
      ord.visit (sortContainers L GoMap.empty GoMap.empty).1.keys := by
  obtain ⟨children, evs, hde, -⟩ := ReadDirAll_ok S D ord r w L s hmiss hlist hok
  rw [hde, entryNames, List.map_map]
  simp [Function.comp_def]

theorem mem_entryNames_iff (L : List SwiftContainer) (s : σ)
    (hmiss : D.GetAll w.cache "" r.path = none)
    (hlist : S.ContainersAll w.swift = (.ok L, s))
    (hok : (Root.ReadDirAll S D ord r w).err = none) (n : String) :
    n ∈ entryNames (Root.ReadDirAll S D ord r w).direntries ↔
      ∃ c ∈ L, c.Name = n ∧ SegmentRegexMatch c.Name = false := by
  rw [entryNames_ok S D ord r w L s hmiss hlist hok, (ord.perm _).mem_iff, base_keys_iff]

theorem entryNames_nodup (L : List SwiftContainer) (s : σ)
    (hmiss : D.GetAll w.cache "" r.path = none)
    (hlist : S.ContainersAll w.swift = (.ok L, s))
    (hok : (Root.ReadDirAll S D ord r w).err = none) :
    (entryNames (Root.ReadDirAll S D ord r w).direntries).Nodup := by
  rw [entryNames_ok S D ord r w L s hmiss hlist hok]
  exact (ord.perm _).nodup_iff.mpr (base_keys_nodup L)

theorem published_ok (children : GoMap Node) (evs : List Event) (path : String)
    (hall : AllCreated evs) :
    published (Event.ContainersAll :: evs ++ [.AddAll "" path children]) =
      [("", path, children)] := by
  simp [published, published_append, hall.published]

theorem createdNames_ok (children : GoMap Node) (evs : List Event) (path : String) :
    createdNames (Event.ContainersAll :: evs ++ [.AddAll "" path children]) =
      createdNames evs := by
  simp [createdNames, createdNames_append]

/-- A successful miss listed the containers. -/
theorem listed_of_ok (hmiss : D.GetAll w.cache "" r.path = none)
    (hok : (Root.ReadDirAll S D ord r w).err = none) :
    ∃ L s, S.ContainersAll w.swift = (.ok L, s) := by
  cases hl : S.ContainersAll w.swift with
  | mk res s =>
    cases res with
    | ok L => exact ⟨L, s, rfl⟩
    | error e =>
      rw [ReadDirAll_list_error S D ord r w e s hmiss hl] at hok
      simp at hok

end Entries

/-! ## Segment invisibility -/

section Claims

variable {σ κ : Type} (S : SwiftConnection σ) (D : DirectoryCache κ) (ord : RangeOrder)
  (r : Root) (w : World σ κ)

/-- C1, as stated, fails: the backend holds one container named `_segments`,
which is the empty string followed by the suffix. The cache-miss `ReadDirAll`
succeeds and returns an entry named `_segments`. -/
theorem segment_invisibility_bare_suffix :
    freshCache.GetAll (coldWorld [bucket "_segments"]).cache "" theRoot.path = none ∧
    okSwift.ContainersAll (coldWorld [bucket "_segments"]).swift =
      (.ok [bucket "_segments"], [bucket "_segments"]) ∧
    (bucket "_segments").Name = "" ++ SegmentContainerSuffix ∧
    (Root.ReadDirAll okSwift freshCache storedOrder theRoot
      (coldWorld [bucket "_segments"])).err = none ∧
    (Root.ReadDirAll okSwift freshCache storedOrder theRoot
      (coldWorld [bucket "_segments"])).direntries = [⟨.DT_Dir, "" ++ SegmentContainerSuffix⟩] := by
  refine ⟨rfl, rfl, rfl, rfl, rfl⟩

/-- C1, amended: for every backend listing and every container in it whose name
is `x` followed by `_segments` with `x` non-empty and free of line feeds (a name
the pattern `^.+_segments$` matches), the entries of a successful cache-miss
`ReadDirAll` contain no entry named `x` followed by `_segments`. -/
theorem segment_invisibility (L : List SwiftContainer) (s : σ)
    (hmiss : D.GetAll w.cache "" r.path = none)
    (hlist : S.ContainersAll w.swift = (.ok L, s))
    (hok : (Root.ReadDirAll S D ord r w).err = none)
    (c : SwiftContainer) (_hc : c ∈ L) (x : String)
    (_hname : c.Name = x ++ SegmentContainerSuffix)
    (hx : x ≠ "") (hnl : ∀ ch ∈ x.data, ch ≠ '\n') :
    x ++ SegmentContainerSuffix ∉ entryNames (Root.ReadDirAll S D ord r w).direntries := by
  rw [mem_entryNames_iff S D ord r w L s hmiss hlist hok]
  rintro ⟨b, -, hb, hbase⟩
  rw [hb, SegmentRegexMatch_append hx hnl] at hbase
  cases hbase

/-- C1, amended, on the listing `{photos, photos_segments, docs}`: no entry is
named `photos_segments`. -/
theorem segment_invisibility_witness :
    "photos" ++ SegmentContainerSuffix ∉
      entryNames (Root.ReadDirAll okSwift freshCache storedOrder theRoot
        (coldWorld photosDocs)).direntries :=
  segment_invisibility okSwift freshCache storedOrder theRoot (coldWorld photosDocs)
    photosDocs photosDocs rfl rfl rfl (bucket "photos_segments") (by decide) "photos" rfl
    (by decide) (by decide)

/-! ## Uniqueness -/

/-- C3: the entries of a successful cache-miss `ReadDirAll` carry pairwise
different names, whatever the backend listed, and the child mapping passed to
`AddAll` has exactly the returned names as keys, each bound to a Container node
of that name. -/
theorem uniqueness (hmiss : D.GetAll w.cache "" r.path = none)
    (hok : (Root.ReadDirAll S D ord r w).err = none) :
    (entryNames (Root.ReadDirAll S D ord r w).direntries).Nodup ∧
    ∃ children : GoMap Node,
      published (Root.ReadDirAll S D ord r w).calls = [("", r.path, children)] ∧
      (Root.ReadDirAll S D ord r w).world.cache = D.AddAll w.cache "" r.path children ∧
      children.keys = entryNames (Root.ReadDirAll S D ord r w).direntries ∧
      ∀ n ∈ entryNames (Root.ReadDirAll S D ord r w).direntries,
        ∃ d, children.get n = some (.container d) ∧ d.name = n := by
  obtain ⟨L, s, hlist⟩ := listed_of_ok S D ord r w hmiss hok
  have hnames := entryNames_ok S D ord r w L s hmiss hlist hok
  obtain ⟨children, evs, -, hcalls, hall, -, hcache, hkeys, hnodes, -⟩ :=
    ReadDirAll_ok S D ord r w L s hmiss hlist hok
  refine ⟨entryNames_nodup S D ord r w L s hmiss hlist hok, children, ?_, hcache, ?_, ?_⟩
  · rw [hcalls, published_ok children evs r.path hall]
  · rw [hkeys, hnames]
  · intro n hn
    rw [hnames, (ord.perm _).mem_iff] at hn
    obtain ⟨c, sg, -, hnode, -⟩ := hnodes n hn
    exact ⟨_, hnode, rfl⟩

/-- C3 on a listing that repeats the name `a`: one entry, one child. -/
theorem uniqueness_witness :
    (entryNames (Root.ReadDirAll okSwift freshCache storedOrder theRoot
      (coldWorld [bucket "a", ⟨"a", 5, 7⟩, bucket "a_segments"])).direntries).Nodup ∧
    ∃ children : GoMap Node,
      published (Root.ReadDirAll okSwift freshCache storedOrder theRoot
        (coldWorld [bucket "a", ⟨"a", 5, 7⟩, bucket "a_segments"])).calls =
          [("", theRoot.path, children)] ∧
      (Root.ReadDirAll okSwift freshCache storedOrder theRoot
        (coldWorld [bucket "a", ⟨"a", 5, 7⟩, bucket "a_segments"])).world.cache =
          freshCache.AddAll (coldWorld [bucket "a", ⟨"a", 5, 7⟩, bucket "a_segments"]).cache
            "" theRoot.path children ∧
      children.keys = entryNames (Root.ReadDirAll okSwift freshCache storedOrder theRoot
        (coldWorld [bucket "a", ⟨"a", 5, 7⟩, bucket "a_segments"])).direntries ∧
      ∀ n ∈ entryNames (Root.ReadDirAll okSwift freshCache storedOrder theRoot
          (coldWorld [bucket "a", ⟨"a", 5, 7⟩, bucket "a_segments"])).direntries,
        ∃ d, children.get n = some (.container d) ∧ d.name = n :=
  uniqueness okSwift freshCache storedOrder theRoot
    (coldWorld [bucket "a", ⟨"a", 5, 7⟩, bucket "a_segments"]) rfl rfl

/-! ## Failure atomicity -/

/-- C5: on a cache miss, if listing the containers fails with `e`, or a
`createContainer` call among the calls of `ReadDirAll` fails with `e`, then
`ReadDirAll` returns no entries and the error `e`, passes nothing to `AddAll`
and leaves the cache state as it was. -/
theorem failure_atomicity (hmiss : D.GetAll w.cache "" r.path = none) (e : GoError)
    (name : String)
    (hfail : (S.ContainersAll w.swift).1 = .error e ∨
      Event.createContainer name (.error e) ∈ (Root.ReadDirAll S D ord r w).calls) :
    (Root.ReadDirAll S D ord r w).direntries = [] ∧
    (Root.ReadDirAll S D ord r w).err = some e ∧
    published (Root.ReadDirAll S D ord r w).calls = [] ∧
    (Root.ReadDirAll S D ord r w).world.cache = w.cache := by
  cases hl : S.ContainersAll w.swift with
  | mk res s =>
    cases res with
    | error e0 =>
      rw [ReadDirAll_list_error S D ord r w e0 s hmiss hl] at hfail ⊢
      rcases hfail with h | h
      · rw [hl] at h
        simp only [Except.error.injEq] at h
        subst h
        exact ⟨rfl, rfl, rfl, rfl⟩
      · simp at h
    | ok L =>
      rcases hfail with h | h
      · rw [hl] at h
        cases h
      · cases herr : (Root.ReadDirAll S D ord r w).err with
        | none =>
          obtain ⟨children, evs, -, hcalls, hall, -⟩ :=
            ReadDirAll_ok S D ord r w L s hmiss hl herr
          rw [hcalls, List.cons_append, List.mem_cons, List.mem_append,
            List.mem_singleton] at h
          rcases h with h | h | h
          · cases h
          · exact absurd h (hall.no_error name e)
          · cases h
        | some e1 =>
          obtain ⟨hde, hcache, evs, k, sw, sw1, hcalls, hall, -⟩ :=
            ReadDirAll_err S D ord r w L s e1 hmiss hl herr
          rw [hcalls, List.cons_append, List.mem_cons, List.mem_append,
            List.mem_singleton] at h
          have he : e = e1 := by
            rcases h with h | h | h
            · cases h
            · exact absurd h (hall.no_error name e)
            · cases h
              rfl
          subst he
          refine ⟨hde, rfl, ?_, hcache⟩
          rw [hcalls]
          simp [published, published_append, hall.published]

/-- C5 on the listing `{photos, photos_segments, docs}` with a backend that
refuses to create `docs_segments`. -/
theorem failure_atomicity_witness :
    (Root.ReadDirAll
      (storeSwift none (fun n => if n = "docs_segments" then some (.Backend 503 "busy") else none))
      freshCache storedOrder theRoot (coldWorld photosDocs)).direntries = [] ∧
    (Root.ReadDirAll
      (storeSwift none (fun n => if n = "docs_segments" then some (.Backend 503 "busy") else none))
      freshCache storedOrder theRoot (coldWorld photosDocs)).err = some (.Backend 503 "busy") ∧
    published (Root.ReadDirAll
      (storeSwift none (fun n => if n = "docs_segments" then some (.Backend 503 "busy") else none))
      freshCache storedOrder theRoot (coldWorld photosDocs)).calls = [] ∧
    (Root.ReadDirAll
      (storeSwift none (fun n => if n = "docs_segments" then some (.Backend 503 "busy") else none))
      freshCache storedOrder theRoot (coldWorld photosDocs)).world.cache =
        (coldWorld photosDocs).cache :=
  failure_atomicity
    (storeSwift none (fun n => if n = "docs_segments" then some (.Backend 503 "busy") else none))
    freshCache storedOrder theRoot (coldWorld photosDocs) rfl (.Backend 503 "busy")
    "docs_segments" (Or.inr (by decide))

/-! ## Root immutability -/

/-- C6: `Create`, `Mkdir`, `Remove` and `Rename` on the root return no node, no
handle and the error `ENOTSUP`, for every request and state, make no call and
leave the cache and the backend as they were. -/
theorem root_immutability (creq : CreateRequest) (mreq : MkdirRequest) (rreq : RemoveRequest)
    (nreq : RenameRequest) (newDir : Node) :
    Root.Create r creq w =
      { node := none, handle := none, err := some .ENOTSUP, world := w, calls := [] } ∧
    Root.Mkdir r mreq w =
      { node := none, handle := none, err := some .ENOTSUP, world := w, calls := [] } ∧
    Root.Remove r rreq w =
      { node := none, handle := none, err := some .ENOTSUP, world := w, calls := [] } ∧
    Root.Rename r nreq newDir w =
      { node := none, handle := none, err := some .ENOTSUP, world := w, calls := [] } :=
  ⟨rfl, rfl, rfl, rfl⟩

end Claims

section Pairing

variable {σ κ : Type} (S : SwiftConnection σ) (D : DirectoryCache κ) (ord : RangeOrder)
  (r : Root) (w : World σ κ)

/-- The names passed to `createContainer` by a successful miss are those of the
base containers without a listed segment container, each once. -/
theorem createdNames_miss (L : List SwiftContainer) (s : σ)
    (hmiss : D.GetAll w.cache "" r.path = none)
    (hlist : S.ContainersAll w.swift = (.ok L, s))
    (hok : (Root.ReadDirAll S D ord r w).err = none) :
    (createdNames (Root.ReadDirAll S D ord r w).calls).Nodup ∧
    ∀ b, b ++ SegmentContainerSuffix ∈ createdNames (Root.ReadDirAll S D ord r w).calls ↔
      b ∈ (sortContainers L GoMap.empty GoMap.empty).1.keys ∧
        (sortContainers L GoMap.empty GoMap.empty).2.get b = none := by
  obtain ⟨children, evs, -, hcalls, -, hnames, -⟩ :=
    ReadDirAll_ok S D ord r w L s hmiss hlist hok
  have hinj : Function.Injective (fun k : String => k ++ SegmentContainerSuffix) :=
    fun a b h => append_suffix_injective h
  have hnd : (ord.visit (sortContainers L GoMap.empty GoMap.empty).1.keys).Nodup :=
    (ord.perm _).nodup_iff.mpr (base_keys_nodup L)
  rw [hcalls, createdNames_ok, hnames]
  refine ⟨(hnd.filter _).map hinj, ?_⟩
  intro b
  rw [List.mem_map_of_injective hinj, List.mem_filter, (ord.perm _).mem_iff,
    Option.isNone_iff_eq_none]

/-! ## Pairing completeness -/

/-- C2: for a listed base container `b` (its name does not match the segment
pattern) with no listed segment container (no listed container matching the
pattern is named `b.Name` followed by `_segments`), a successful cache-miss
`ReadDirAll` calls `createContainer` for the name `b.Name` followed by
`_segments`, once, and the Container node passed to `AddAll` under the key
`b.Name` has the container returned by that call as segment reference and a
listed container of the name of `b` as base reference, `b` itself when no other
listed container bears its name. -/
theorem pairing_completeness (L : List SwiftContainer) (s : σ)
    (hmiss : D.GetAll w.cache "" r.path = none)
    (hlist : S.ContainersAll w.swift = (.ok L, s))
    (hok : (Root.ReadDirAll S D ord r w).err = none)
    (b : SwiftContainer) (hb : b ∈ L) (hbase : SegmentRegexMatch b.Name = false)
    (hnoseg : ∀ c ∈ L, SegmentRegexMatch c.Name = true →
      c.Name ≠ b.Name ++ SegmentContainerSuffix) :
    ∃ (children : GoMap Node) (c sg : SwiftContainer),
      Event.createContainer (b.Name ++ SegmentContainerSuffix) (.ok sg) ∈
        (Root.ReadDirAll S D ord r w).calls ∧
      (createdNames (Root.ReadDirAll S D ord r w).calls).count
        (b.Name ++ SegmentContainerSuffix) = 1 ∧
      published (Root.ReadDirAll S D ord r w).calls = [("", r.path, children)] ∧
      (Root.ReadDirAll S D ord r w).world.cache = D.AddAll w.cache "" r.path children ∧
      children.get b.Name = some (.container ⟨some c, some sg, b.Name, ""⟩) ∧
      c ∈ L ∧ c.Name = b.Name ∧ ((∀ d ∈ L, d.Name = b.Name → d = b) → c = b) := by
  have hkey : b.Name ∈ (sortContainers L GoMap.empty GoMap.empty).1.keys :=
    (base_keys_iff L b.Name).mpr ⟨b, hb, rfl, hbase⟩
  have hnone : (sortContainers L GoMap.empty GoMap.empty).2.get b.Name = none := by
    rw [seg_get_none_iff]
    rintro ⟨c, hc, hm, ht⟩
    exact hnoseg c hc hm ((TrimSuffix_eq_iff hm).mp ht)
  obtain ⟨hnd, hmem⟩ := createdNames_miss S D ord r w L s hmiss hlist hok
  obtain ⟨children, evs, -, hcalls, hall, -, hcache, -, hnodes, -⟩ :=
    ReadDirAll_ok S D ord r w L s hmiss hlist hok
  obtain ⟨c, sg, hc, hnode, hsg⟩ := hnodes b.Name hkey
  obtain ⟨hcL, hcname, -⟩ := base_get_name L b.Name c hc
  have hev : Event.createContainer (b.Name ++ SegmentContainerSuffix) (.ok sg) ∈ evs := by
    rcases hsg with h | ⟨-, h⟩
    · rw [hnone] at h
      cases h
    · exact h
  refine ⟨children, c, sg, ?_, ?_, ?_, hcache, hnode, hcL, hcname, fun h => h c hcL hcname⟩
  · rw [hcalls]
    simp [hev]
  · exact List.count_eq_one_of_mem hnd ((hmem b.Name).mpr ⟨hkey, hnone⟩)
  · rw [hcalls, published_ok children evs r.path hall]

/-- C2 on the listing `{photos, photos_segments, docs}` for the container
`docs`: `docs_segments` is created and paired with it. -/
theorem pairing_completeness_witness :
    ∃ (children : GoMap Node) (c sg : SwiftContainer),
      Event.createContainer ((bucket "docs").Name ++ SegmentContainerSuffix) (.ok sg) ∈
        (Root.ReadDirAll okSwift freshCache storedOrder theRoot (coldWorld photosDocs)).calls ∧
      (createdNames
        (Root.ReadDirAll okSwift freshCache storedOrder theRoot (coldWorld photosDocs)).calls).count
        ((bucket "docs").Name ++ SegmentContainerSuffix) = 1 ∧
      published
        (Root.ReadDirAll okSwift freshCache storedOrder theRoot (coldWorld photosDocs)).calls =
          [("", theRoot.path, children)] ∧
      (Root.ReadDirAll okSwift freshCache storedOrder theRoot (coldWorld photosDocs)).world.cache =
        freshCache.AddAll (coldWorld photosDocs).cache "" theRoot.path children ∧
      children.get (bucket "docs").Name =
        some (.container ⟨some c, some sg, (bucket "docs").Name, ""⟩) ∧
      c ∈ photosDocs ∧ c.Name = (bucket "docs").Name ∧
      ((∀ d ∈ photosDocs, d.Name = (bucket "docs").Name → d = bucket "docs") →
        c = bucket "docs") :=
  pairing_completeness okSwift freshCache storedOrder theRoot (coldWorld photosDocs)
    photosDocs photosDocs rfl rfl rfl (bucket "docs") (by decide) (by decide) (by decide)

/-! ## Create only when missing -/

/-- C9: in a successful cache-miss `ReadDirAll`, `createContainer` is called for
a base container `b` (with the name `b` followed by `_segments`) if and only if
the listing holds no container that matches the segment pattern and whose name
with the suffix trimmed is `b`; when the listing holds one, no call is made for
`b` and the Container node of `b` references a listed container that matches the
pattern and is named `b` followed by `_segments`. -/
theorem create_only_when_missing (L : List SwiftContainer) (s : σ)
    (hmiss : D.GetAll w.cache "" r.path = none)
    (hlist : S.ContainersAll w.swift = (.ok L, s))
    (hok : (Root.ReadDirAll S D ord r w).err = none)
    (b : String) (hb : ∃ c ∈ L, c.Name = b ∧ SegmentRegexMatch c.Name = false) :
    (b ++ SegmentContainerSuffix ∈ createdNames (Root.ReadDirAll S D ord r w).calls ↔
      ¬ ∃ sg ∈ L, SegmentRegexMatch sg.Name = true ∧
        TrimSuffix sg.Name SegmentContainerSuffix = b) ∧
    ((∃ sg ∈ L, SegmentRegexMatch sg.Name = true ∧
        TrimSuffix sg.Name SegmentContainerSuffix = b) →
      b ++ SegmentContainerSuffix ∉ createdNames (Root.ReadDirAll S D ord r w).calls ∧
      ∃ (children : GoMap Node) (c sg : SwiftContainer),
        published (Root.ReadDirAll S D ord r w).calls = [("", r.path, children)] ∧
        children.get b = some (.container ⟨some c, some sg, b, ""⟩) ∧
        sg ∈ L ∧ SegmentRegexMatch sg.Name = true ∧
        sg.Name = b ++ SegmentContainerSuffix) := by
  have hkey : b ∈ (sortContainers L GoMap.empty GoMap.empty).1.keys :=
    (base_keys_iff L b).mpr hb
  obtain ⟨-, hmem⟩ := createdNames_miss S D ord r w L s hmiss hlist hok
  have hiff : b ++ SegmentContainerSuffix ∈ createdNames (Root.ReadDirAll S D ord r w).calls ↔
      ¬ ∃ sg ∈ L, SegmentRegexMatch sg.Name = true ∧
        TrimSuffix sg.Name SegmentContainerSuffix = b := by
    rw [hmem b, seg_get_none_iff]
    exact ⟨fun h => h.2, fun h => ⟨hkey, h⟩⟩
  refine ⟨hiff, fun hex => ⟨fun hm => hiff.mp hm hex, ?_⟩⟩
  obtain ⟨children, evs, -, hcalls, hall, -, -, -, hnodes, -⟩ :=
    ReadDirAll_ok S D ord r w L s hmiss hlist hok
  obtain ⟨c, sg, -, hnode, hsg⟩ := hnodes b hkey
  have hsome : (sortContainers L GoMap.empty GoMap.empty).2.get b = some sg := by
    rcases hsg with h | ⟨h, -⟩
    · exact h
    · exact absurd hex ((seg_get_none_iff L b).mp h)
  obtain ⟨h1, h2, h3⟩ := seg_get_name L b sg hsome
  exact ⟨children, c, sg, by rw [hcalls, published_ok children evs r.path hall], hnode,
    h1, h2, h3⟩

/-- C9 on the listing `{photos, photos_segments, docs}` for `photos`, whose
segment container is listed. -/
theorem create_only_when_missing_witness :
    ("photos" ++ SegmentContainerSuffix ∈ createdNames
        (Root.ReadDirAll okSwift freshCache storedOrder theRoot (coldWorld photosDocs)).calls ↔
      ¬ ∃ sg ∈ photosDocs, SegmentRegexMatch sg.Name = true ∧
        TrimSuffix sg.Name SegmentContainerSuffix = "photos") ∧
    ((∃ sg ∈ photosDocs, SegmentRegexMatch sg.Name = true ∧
        TrimSuffix sg.Name SegmentContainerSuffix = "photos") →
      "photos" ++ SegmentContainerSuffix ∉ createdNames
        (Root.ReadDirAll okSwift freshCache storedOrder theRoot (coldWorld photosDocs)).calls ∧
      ∃ (children : GoMap Node) (c sg : SwiftContainer),
        published
          (Root.ReadDirAll okSwift freshCache storedOrder theRoot (coldWorld photosDocs)).calls =
            [("", theRoot.path, children)] ∧
        children.get "photos" = some (.container ⟨some c, some sg, "photos", ""⟩) ∧
        sg ∈ photosDocs ∧ SegmentRegexMatch sg.Name = true ∧
        sg.Name = "photos" ++ SegmentContainerSuffix) :=
  create_only_when_missing okSwift freshCache storedOrder theRoot (coldWorld photosDocs)
    photosDocs photosDocs rfl rfl rfl "photos" ⟨bucket "photos", by decide, rfl, rfl⟩

/-! ## Orphan segment containers -/

/-- C10: for a listed container `o` that matches the segment pattern and whose
trimmed name is not the name of a listed base container, a successful
cache-miss `ReadDirAll` returns no entry of its name or of its trimmed name,
passes no child under either key to `AddAll` and makes no `createContainer`
call with its name; the entry names are exactly the names of the listed
containers that do not match the segment pattern. -/
theorem orphan_segments_dropped (L : List SwiftContainer) (s : σ)
    (hmiss : D.GetAll w.cache "" r.path = none)
    (hlist : S.ContainersAll w.swift = (.ok L, s))
    (hok : (Root.ReadDirAll S D ord r w).err = none)
    (o : SwiftContainer) (_ho : o ∈ L) (hm : SegmentRegexMatch o.Name = true)
    (horphan : ∀ c ∈ L, SegmentRegexMatch c.Name = false →
      c.Name ≠ TrimSuffix o.Name SegmentContainerSuffix) :
    o.Name ∉ entryNames (Root.ReadDirAll S D ord r w).direntries ∧
    TrimSuffix o.Name SegmentContainerSuffix ∉
      entryNames (Root.ReadDirAll S D ord r w).direntries ∧
    o.Name ∉ createdNames (Root.ReadDirAll S D ord r w).calls ∧
    (∃ children : GoMap Node,
      published (Root.ReadDirAll S D ord r w).calls = [("", r.path, children)] ∧
      children.get o.Name = none ∧
      children.get (TrimSuffix o.Name SegmentContainerSuffix) = none) ∧
    ∀ n, n ∈ entryNames (Root.ReadDirAll S D ord r w).direntries ↔
      ∃ c ∈ L, c.Name = n ∧ SegmentRegexMatch c.Name = false := by
  have hiff := mem_entryNames_iff S D ord r w L s hmiss hlist hok
  have h1 : o.Name ∉ entryNames (Root.ReadDirAll S D ord r w).direntries := by
    rw [hiff]
    rintro ⟨c, -, hc, hcb⟩
    rw [hc, hm] at hcb
    cases hcb
  have h2 : TrimSuffix o.Name SegmentContainerSuffix ∉
      entryNames (Root.ReadDirAll S D ord r w).direntries := by
    rw [hiff]
    rintro ⟨c, hc, hcn, hcb⟩
    exact horphan c hc hcb hcn
  obtain ⟨-, hmem⟩ := createdNames_miss S D ord r w L s hmiss hlist hok
  have hnames := entryNames_ok S D ord r w L s hmiss hlist hok
  obtain ⟨children, evs, -, hcalls, hall, -, -, hkeys, -, -⟩ :=
    ReadDirAll_ok S D ord r w L s hmiss hlist hok
  refine ⟨h1, h2, ?_,
    ⟨children, by rw [hcalls, published_ok children evs r.path hall], ?_, ?_⟩, hiff⟩
  · intro hcr
    rw [TrimSuffix_of_match hm, hmem] at hcr
    obtain ⟨c, hc, hcn, hcb⟩ := (base_keys_iff L _).mp hcr.1
    exact horphan c hc hcb hcn
  · rw [GoMap.get_eq_none_iff, hkeys, ← hnames]
    exact h1
  · rw [GoMap.get_eq_none_iff, hkeys, ← hnames]
    exact h2

/-- C10 on the listing `{photos, lost_segments}`: the orphan `lost_segments`
leaves no trace. -/
theorem orphan_segments_dropped_witness :
    (bucket "lost_segments").Name ∉ entryNames (Root.ReadDirAll okSwift freshCache storedOrder
      theRoot (coldWorld [bucket "photos", bucket "lost_segments"])).direntries ∧
    TrimSuffix (bucket "lost_segments").Name SegmentContainerSuffix ∉
      entryNames (Root.ReadDirAll okSwift freshCache storedOrder theRoot
        (coldWorld [bucket "photos", bucket "lost_segments"])).direntries ∧
    (bucket "lost_segments").Name ∉ createdNames (Root.ReadDirAll okSwift freshCache
      storedOrder theRoot (coldWorld [bucket "photos", bucket "lost_segments"])).calls ∧
    (∃ children : GoMap Node,
      published (Root.ReadDirAll okSwift freshCache storedOrder theRoot
        (coldWorld [bucket "photos", bucket "lost_segments"])).calls =
          [("", theRoot.path, children)] ∧
      children.get (bucket "lost_segments").Name = none ∧
      children.get (TrimSuffix (bucket "lost_segments").Name SegmentContainerSuffix) = none) ∧
    ∀ n, n ∈ entryNames (Root.ReadDirAll okSwift freshCache storedOrder theRoot
        (coldWorld [bucket "photos", bucket "lost_segments"])).direntries ↔
      ∃ c ∈ [bucket "photos", bucket "lost_segments"],
        c.Name = n ∧ SegmentRegexMatch c.Name = false :=
  orphan_segments_dropped okSwift freshCache storedOrder theRoot
    (coldWorld [bucket "photos", bucket "lost_segments"])
    [bucket "photos", bucket "lost_segments"] [bucket "photos", bucket "lost_segments"]
    rfl rfl rfl (bucket "lost_segments") (by decide) (by decide) (by decide)

end Pairing

section Lookup

variable {σ κ : Type} (S : SwiftConnection σ) (D : DirectoryCache κ) (ord : RangeOrder)
  (r : Root) (w : World σ κ)

theorem Lookup_stale_container (req : LookupRequest) (d : Directory)
    (hstale : D.Peek w.cache "" r.path = false)
    (hget : D.Get (Root.ReadDirAll S D ord r w).world.cache "" r.path req.Name =
      some (.container d)) :
    (Root.Lookup S D ord r req w).node = some (.container d) ∧
      (Root.Lookup S D ord r req w).err = none ∧
      (Root.Lookup S D ord r req w).calls = (Root.ReadDirAll S D ord r w).calls := by
  simp [Root.Lookup, hstale, hget]

theorem Lookup_stale_none (req : LookupRequest)
    (hstale : D.Peek w.cache "" r.path = false)
    (hget : D.Get (Root.ReadDirAll S D ord r w).world.cache "" r.path req.Name = none) :
    (Root.Lookup S D ord r req w).node = none ∧
      (Root.Lookup S D ord r req w).err = some .ENOENT := by
  simp [Root.Lookup, hstale, hget]

/-- When every `createContainer` call succeeds, so does a miss whose listing
succeeded. -/
theorem ReadDirAll_succeeds (L : List SwiftContainer) (s : σ)
    (hmiss : D.GetAll w.cache "" r.path = none)
    (hlist : S.ContainersAll w.swift = (.ok L, s))
    (hcreate : ∀ n sw, ∃ c sw1, S.createContainer n sw = (.ok c, sw1)) :
    (Root.ReadDirAll S D ord r w).err = none := by
  cases herr : (Root.ReadDirAll S D ord r w).err with
  | none => rfl
  | some e =>
    obtain ⟨-, -, evs, k, sw, sw1, -, -, -, -, hfail⟩ :=
      ReadDirAll_err S D ord r w L s e hmiss hlist herr
    obtain ⟨c, sw2, hc⟩ := hcreate (k ++ SegmentContainerSuffix) sw
    rw [hc] at hfail
    cases hfail

theorem freshCache_Get_AddAll (cache : List ((String × String) × GoMap Node))
    (path : String) (children : GoMap Node) (name : String) :
    freshCache.Get (freshCache.AddAll cache "" path children) "" path name =
      children.get name := by
  simp [freshCache]

theorem okSwift_createContainer (n : String) (sw : List SwiftContainer) :
    ∃ c sw1, okSwift.createContainer n sw = (.ok c, sw1) ∧ c.Name = n := by
  cases h : sw.find? (fun c => decide (c.Name = n)) with
  | none => exact ⟨⟨n, 0, 0⟩, sw ++ [⟨n, 0, 0⟩], by simp [okSwift, storeSwift, h], rfl⟩
  | some c =>
    refine ⟨c, sw, by simp [okSwift, storeSwift, h], ?_⟩
    simpa using List.find?_some h

/-! ## Lookup resolution -/

/-- C7: assume that `Get` after `AddAll` returns the published child, that the
root entry is stale, that the listing succeeds with `L` and that every
`createContainer` call succeeds with a container of the requested name. Then
`Lookup` of the name of a base container of `L` returns the Container node of
that name, with a listed container of that name as base reference and a
container named with the suffix `_segments` appended as segment reference; and
`Lookup` of any other name fails with `ENOENT`. -/
theorem lookup_resolution (L : List SwiftContainer) (s : σ)
    (hGet : ∀ cache path children name,
      D.Get (D.AddAll cache "" path children) "" path name = children.get name)
    (hstale : D.Peek w.cache "" r.path = false)
    (hmiss : D.GetAll w.cache "" r.path = none)
    (hlist : S.ContainersAll w.swift = (.ok L, s))
    (hcreate : ∀ n sw, ∃ c sw1, S.createContainer n sw = (.ok c, sw1) ∧ c.Name = n)
    (req : LookupRequest) :
    ((∃ c ∈ L, c.Name = req.Name ∧ SegmentRegexMatch c.Name = false) →
      ∃ c sg : SwiftContainer, c ∈ L ∧ c.Name = req.Name ∧
        sg.Name = req.Name ++ SegmentContainerSuffix ∧
        (Root.Lookup S D ord r req w).node =
          some (.container ⟨some c, some sg, req.Name, ""⟩) ∧
        (Root.Lookup S D ord r req w).err = none) ∧
    ((¬ ∃ c ∈ L, c.Name = req.Name ∧ SegmentRegexMatch c.Name = false) →
      (Root.Lookup S D ord r req w).node = none ∧
      (Root.Lookup S D ord r req w).err = some .ENOENT) := by
  have hok : (Root.ReadDirAll S D ord r w).err = none :=
    ReadDirAll_succeeds S D ord r w L s hmiss hlist (fun n sw => by
      obtain ⟨c, sw1, h, -⟩ := hcreate n sw
      exact ⟨c, sw1, h⟩)
  obtain ⟨children, evs, -, -, -, -, hcache, hkeys, hnodes, hfrom⟩ :=
    ReadDirAll_ok S D ord r w L s hmiss hlist hok
  have hget : D.Get (Root.ReadDirAll S D ord r w).world.cache "" r.path req.Name =
      children.get req.Name := by
    rw [hcache, hGet]
  constructor
  · intro hbase
    obtain ⟨c, sg, hc, hnode, hsg⟩ := hnodes req.Name ((base_keys_iff L req.Name).mpr hbase)
    obtain ⟨hcL, hcname, -⟩ := base_get_name L req.Name c hc
    have hsgname : sg.Name = req.Name ++ SegmentContainerSuffix := by
      rcases hsg with h | ⟨-, h⟩
      · exact (seg_get_name L req.Name sg h).2.2
      · obtain ⟨sw, sw1, hcall⟩ := hfrom _ _ h
        obtain ⟨c1, sw2, hcall1, hname1⟩ := hcreate (req.Name ++ SegmentContainerSuffix) sw
        rw [hcall] at hcall1
        cases hcall1
        exact hname1
    rw [hnode] at hget
    obtain ⟨h1, h2, -⟩ := Lookup_stale_container S D ord r w req _ hstale hget
    exact ⟨c, sg, hcL, hcname, hsgname, h1, h2⟩
  · intro hnot
    have hnone : children.get req.Name = none := by
      rw [GoMap.get_eq_none_iff, hkeys, (ord.perm _).mem_iff, base_keys_iff]
      exact hnot
    rw [hnone] at hget
    exact Lookup_stale_none S D ord r w req hstale hget

/-- C7 on the listing `{photos, photos_segments, docs}`: `Lookup("photos")`
yields the Container paired with `photos_segments`, `Lookup("missing")` yields
`ENOENT`. -/
theorem lookup_resolution_witness :
    (∃ c sg : SwiftContainer, c ∈ photosDocs ∧ c.Name = "photos" ∧
      sg.Name = "photos" ++ SegmentContainerSuffix ∧
      (Root.Lookup okSwift freshCache storedOrder theRoot ⟨"photos"⟩
        (coldWorld photosDocs)).node = some (.container ⟨some c, some sg, "photos", ""⟩) ∧
      (Root.Lookup okSwift freshCache storedOrder theRoot ⟨"photos"⟩
        (coldWorld photosDocs)).err = none) ∧
    ((Root.Lookup okSwift freshCache storedOrder theRoot ⟨"missing"⟩
        (coldWorld photosDocs)).node = none ∧
      (Root.Lookup okSwift freshCache storedOrder theRoot ⟨"missing"⟩
        (coldWorld photosDocs)).err = some .ENOENT) ∧
    (Root.Lookup okSwift freshCache storedOrder theRoot ⟨"photos"⟩
      (coldWorld photosDocs)).node =
        some (.container ⟨some (bucket "photos"), some (bucket "photos_segments"),
          "photos", ""⟩) :=
  ⟨(lookup_resolution okSwift freshCache storedOrder theRoot (coldWorld photosDocs)
      photosDocs photosDocs freshCache_Get_AddAll rfl rfl rfl okSwift_createContainer
      ⟨"photos"⟩).1 ⟨bucket "photos", by decide, rfl, rfl⟩,
    (lookup_resolution okSwift freshCache storedOrder theRoot (coldWorld photosDocs)
      photosDocs photosDocs freshCache_Get_AddAll rfl rfl rfl okSwift_createContainer
      ⟨"missing"⟩).2 (by decide),
    rfl⟩

/-! ## Backend errors and `Lookup` -/

/-- C4, the code at the failing input: with nothing cached and a backend whose
listing fails with status 503, the rebuild inside `Lookup("photos")` fails
with that error, and `Lookup` returns no node and `ENOENT`. The same holds when
the listing succeeds and creating `docs_segments` fails with status 507. -/
theorem lookup_drops_backend_error :
    freshCache.Peek (coldWorld photosDocs).cache "" theRoot.path = false ∧
    (Root.ReadDirAll (storeSwift (some (.Backend 503 "unavailable")) (fun _ => none))
      freshCache storedOrder theRoot (coldWorld photosDocs)).err =
        some (.Backend 503 "unavailable") ∧
    (Root.Lookup (storeSwift (some (.Backend 503 "unavailable")) (fun _ => none))
      freshCache storedOrder theRoot ⟨"photos"⟩ (coldWorld photosDocs)).node = none ∧
    (Root.Lookup (storeSwift (some (.Backend 503 "unavailable")) (fun _ => none))
      freshCache storedOrder theRoot ⟨"photos"⟩ (coldWorld photosDocs)).err =
        some .ENOENT ∧
    (Root.ReadDirAll
      (storeSwift none (fun n => if n = "docs_segments" then some (.Backend 507 "full") else none))
      freshCache storedOrder theRoot (coldWorld photosDocs)).err =
        some (.Backend 507 "full") ∧
    (Root.Lookup
      (storeSwift none (fun n => if n = "docs_segments" then some (.Backend 507 "full") else none))
      freshCache storedOrder theRoot ⟨"photos"⟩ (coldWorld photosDocs)).err =
        some .ENOENT :=
  ⟨rfl, rfl, rfl, rfl, rfl, rfl⟩

end Lookup

section Rebuild

variable {σ κ : Type} (S : SwiftConnection σ) (D : DirectoryCache κ) (ord : RangeOrder)
  (r : Root) (w : World σ κ)

theorem okSwift_created_name (n : String) (sw : List SwiftContainer) (c : SwiftContainer)
    (sw1 : List SwiftContainer) (h : okSwift.createContainer n sw = (.ok c, sw1)) :
    c.Name = n := by
  obtain ⟨c1, sw2, h1, hn⟩ := okSwift_createContainer n sw
  rw [h] at h1
  cases h1
  exact hn

/-! ## Idempotent rebuild -/

/-- C8, the code at the failing input: the backend holds one container whose
name `a`, line feed, `b` has a line feed in it. The first cache-miss
`ReadDirAll` exports the entry of that name and creates the segment container
of that name followed by `_segments`. The pattern does not match the name of
the container just created, so the second cache-miss `ReadDirAll`, over the
backend state the first one left, exports it as a second entry and calls
`createContainer` twice. -/
theorem rebuild_repeats_for_line_feed_name :
    SegmentRegexMatch ("a\nb" ++ SegmentContainerSuffix) = false ∧
    (Root.ReadDirAll okSwift freshCache storedOrder theRoot (coldWorld [bucket "a\nb"])).err =
      none ∧
    entryNames (Root.ReadDirAll okSwift freshCache storedOrder theRoot
      (coldWorld [bucket "a\nb"])).direntries = ["a\nb"] ∧
    createdNames (Root.ReadDirAll okSwift freshCache storedOrder theRoot
      (coldWorld [bucket "a\nb"])).calls = ["a\nb_segments"] ∧
    (Root.ReadDirAll okSwift freshCache storedOrder theRoot
      (coldWorld [bucket "a\nb"])).world.swift = [bucket "a\nb", bucket "a\nb_segments"] ∧
    (Root.ReadDirAll okSwift freshCache storedOrder theRoot
      (coldWorld [bucket "a\nb", bucket "a\nb_segments"])).err = none ∧
    entryNames (Root.ReadDirAll okSwift freshCache storedOrder theRoot
      (coldWorld [bucket "a\nb", bucket "a\nb_segments"])).direntries =
        ["a\nb", "a\nb_segments"] ∧
    createdNames (Root.ReadDirAll okSwift freshCache storedOrder theRoot
      (coldWorld [bucket "a\nb", bucket "a\nb_segments"])).calls =
        ["a\nb_segments", "a\nb_segments_segments"] :=
  ⟨rfl, rfl, rfl, rfl, rfl, rfl, rfl, rfl⟩

/-- Away from such names the rebuild is idempotent: let `L` be a backend listing
in which the name of every base container is non-empty and free of line feeds,
let the first cache-miss `ReadDirAll` over `L` succeed, and let
`createContainer` answer with containers of the requested name. Then a second cache-miss `ReadDirAll` whose listing holds
the containers of `L` and the containers the first one created succeeds,
exports the same entries as the first one, up to order, and makes no
`createContainer` call. -/
theorem rebuild_idempotent (ord2 : RangeOrder) (w2 : World σ κ)
    (L L2 : List SwiftContainer) (s s2 : σ)
    (hmiss : D.GetAll w.cache "" r.path = none)
    (hlist : S.ContainersAll w.swift = (.ok L, s))
    (hok : (Root.ReadDirAll S D ord r w).err = none)
    (hcontract : ∀ n sw c sw1, S.createContainer n sw = (.ok c, sw1) → c.Name = n)
    (hnames : ∀ c ∈ L, SegmentRegexMatch c.Name = false →
      c.Name ≠ "" ∧ ∀ ch ∈ c.Name.data, ch ≠ '\n')
    (hmiss2 : D.GetAll w2.cache "" r.path = none)
    (hlist2 : S.ContainersAll w2.swift = (.ok L2, s2))
    (hL2 : ∀ c, c ∈ L2 ↔
      c ∈ L ∨ c ∈ createdContainers (Root.ReadDirAll S D ord r w).calls) :
    (Root.ReadDirAll S D ord2 r w2).err = none ∧
    (Root.ReadDirAll S D ord2 r w2).direntries.Perm (Root.ReadDirAll S D ord r w).direntries ∧
    createdNames (Root.ReadDirAll S D ord2 r w2).calls = [] := by
  obtain ⟨children, evs, hde, hcalls, hall, hcn, -, -, hnodes, hfrom⟩ :=
    ReadDirAll_ok S D ord r w L s hmiss hlist hok
  have hin : ∀ n c, Event.createContainer n (.ok c) ∈ (Root.ReadDirAll S D ord r w).calls ↔
      Event.createContainer n (.ok c) ∈ evs := by
    intro n c
    rw [hcalls]
    simp
  have hmatch : ∀ k ∈ (sortContainers L GoMap.empty GoMap.empty).1.keys,
      SegmentRegexMatch (k ++ SegmentContainerSuffix) = true := by
    intro k hk
    obtain ⟨c, hc, hcn1, hcb⟩ := (base_keys_iff L k).mp hk
    obtain ⟨h1, h2⟩ := hnames c hc hcb
    rw [hcn1] at h1 h2
    exact SegmentRegexMatch_append h1 h2
  have hcreated : ∀ c, c ∈ createdContainers (Root.ReadDirAll S D ord r w).calls →
      SegmentRegexMatch c.Name = true := by
    intro c hc
    obtain ⟨n, hn⟩ := (mem_createdContainers _ c).mp hc
    rw [hin] at hn
    obtain ⟨sw, sw1, hcall⟩ := hfrom n c hn
    rw [hcontract n sw c sw1 hcall]
    have hmem : n ∈ createdNames evs := (mem_createdNames evs n).mpr ⟨_, hn⟩
    rw [hcn, List.mem_map] at hmem
    obtain ⟨k, hk, rfl⟩ := hmem
    exact hmatch k ((ord.perm _).mem_iff.mp (List.mem_filter.mp hk).1)
  have hkeys : ∀ k, k ∈ (sortContainers L2 GoMap.empty GoMap.empty).1.keys ↔
      k ∈ (sortContainers L GoMap.empty GoMap.empty).1.keys := by
    intro k
    rw [base_keys_iff, base_keys_iff]
    constructor
    · rintro ⟨c, hc, hn, hb⟩
      rcases (hL2 c).mp hc with h | h
      · exact ⟨c, h, hn, hb⟩
      · rw [hcreated c h] at hb
        cases hb
    · rintro ⟨c, hc, hn, hb⟩
      exact ⟨c, (hL2 c).mpr (Or.inl hc), hn, hb⟩
  have hseg2 : ∀ k ∈ (sortContainers L2 GoMap.empty GoMap.empty).1.keys,
      (sortContainers L2 GoMap.empty GoMap.empty).2.get k ≠ none := by
    intro k hk hnone
    rw [seg_get_none_iff] at hnone
    apply hnone
    have hk1 := (hkeys k).mp hk
    obtain ⟨c, sg, -, -, hsg⟩ := hnodes k hk1
    rcases hsg with h | ⟨-, h⟩
    · obtain ⟨h1, h2, h3⟩ := seg_get_name L k sg h
      exact ⟨sg, (hL2 sg).mpr (Or.inl h1), h2, (TrimSuffix_eq_iff h2).mpr h3⟩
    · have hsgc : sg ∈ createdContainers (Root.ReadDirAll S D ord r w).calls :=
        (mem_createdContainers _ sg).mpr ⟨_, (hin _ _).mpr h⟩
      obtain ⟨sw, sw1, hcall⟩ := hfrom _ _ h
      have hn := hcontract _ _ _ _ hcall
      have hm : SegmentRegexMatch sg.Name = true := hcreated sg hsgc
      exact ⟨sg, (hL2 sg).mpr (Or.inr hsgc), hm, (TrimSuffix_eq_iff hm).mpr hn⟩
  have hok2 : (Root.ReadDirAll S D ord2 r w2).err = none := by
    cases herr : (Root.ReadDirAll S D ord2 r w2).err with
    | none => rfl
    | some e =>
      obtain ⟨-, -, evs2, k, sw, sw1, -, -, hk, hnone, -⟩ :=
        ReadDirAll_err S D ord2 r w2 L2 s2 e hmiss2 hlist2 herr
      exact absurd hnone (hseg2 k hk)
  obtain ⟨children2, evs2, hde2, hcalls2, -, hcn2, -⟩ :=
    ReadDirAll_ok S D ord2 r w2 L2 s2 hmiss2 hlist2 hok2
  refine ⟨hok2, ?_, ?_⟩
  · rw [hde2, hde]
    apply List.Perm.map
    exact ((ord2.perm _).trans ((List.perm_ext_iff_of_nodup (base_keys_nodup L2)
      (base_keys_nodup L)).mpr hkeys)).trans (ord.perm _).symm
  · rw [hcalls2, createdNames_ok, hcn2, List.map_eq_nil_iff, List.filter_eq_nil_iff]
    intro k hk
    have hne := hseg2 k ((ord2.perm _).mem_iff.mp hk)
    cases hget : (sortContainers L2 GoMap.empty GoMap.empty).2.get k with
    | none => exact absurd hget hne
    | some sg => simp

/-- The idempotent rebuild on the listing `{photos, photos_segments, docs}`: the
second rebuild, visiting the map in another order, exports the entries of the first
one and creates nothing. -/
theorem rebuild_idempotent_witness :
    (Root.ReadDirAll okSwift freshCache reversedOrder theRoot
      (coldWorld (Root.ReadDirAll okSwift freshCache storedOrder theRoot
        (coldWorld photosDocs)).world.swift)).err = none ∧
    (Root.ReadDirAll okSwift freshCache reversedOrder theRoot
      (coldWorld (Root.ReadDirAll okSwift freshCache storedOrder theRoot
        (coldWorld photosDocs)).world.swift)).direntries.Perm
      (Root.ReadDirAll okSwift freshCache storedOrder theRoot (coldWorld photosDocs)).direntries ∧
    createdNames (Root.ReadDirAll okSwift freshCache reversedOrder theRoot
      (coldWorld (Root.ReadDirAll okSwift freshCache storedOrder theRoot
        (coldWorld photosDocs)).world.swift)).calls = [] :=
  rebuild_idempotent okSwift freshCache storedOrder theRoot (coldWorld photosDocs)
    reversedOrder
    (coldWorld (Root.ReadDirAll okSwift freshCache storedOrder theRoot
      (coldWorld photosDocs)).world.swift)
    photosDocs
    (Root.ReadDirAll okSwift freshCache storedOrder theRoot (coldWorld photosDocs)).world.swift
    photosDocs
    (Root.ReadDirAll okSwift freshCache storedOrder theRoot (coldWorld photosDocs)).world.swift
    rfl rfl rfl okSwift_created_name (by decide) rfl rfl
    (fun _ => List.mem_append)

end Rebuild

end svfs
